import Mathlib

/-!
Verification of the prefix-coalescing engine of `compact_ranges.py`.

The script operates on CIDR blocks of a single address family (IPv4 with
32 bits, IPv6 with 128 bits).  We model a block as a pair of a base
address and a mask length over an arbitrary bit width `W`, so every
theorem below covers both families at once.

The embedding follows the source code:
* `collapse` models `coalesce_prefixes`, i.e. the Python standard
  library's `ipaddress.collapse_addresses` applied to a list of network
  objects: a worklist loop that repeatedly replaces two distinct blocks
  sharing the same immediate parent by that parent (`mergeLoop`,
  mirroring `_collapse_addresses_internal`'s `to_merge` stack and
  `subnets` dictionary keyed by `supernet()`), followed by sorting and
  a scan dropping blocks contained in the previously emitted one
  (`skipPass`).
* `coalesceWithMetadata` models `coalesce_with_metadata`: group the
  tagged input by its `(region, service, network_border_group)` key with
  `.get` defaults (`groupEntries`), collapse each group and re-tag
  (`intermediate`), then a single left-to-right pass that merges each
  entry with all later entries whose networks overlap or contain one
  another (`crossMerge` / `mergeGroup`), tagging the merged result with
  the leader's metadata when all members agree and with the sentinel
  `("other", "OTHER", "other")` otherwise, and finally sorts by network.
* `parseNetwork` models the validation done by `IPv4Network` /
  `IPv6Network` constructors (with the default `strict=True`) on the
  integer form of a textual CIDR: mask length in range, address in
  range, and no host bits set beyond the mask length.
-/

/-- A CIDR block: base address and mask length, family fixed by the
bit width `W` carried by every operation. -/
structure Net where
  base : Nat
  plen : Nat
deriving DecidableEq

/-- Number of addresses in the block. -/
def Net.size (W : Nat) (n : Net) : Nat := 2 ^ (W - n.plen)

/-- The highest address of the block (`broadcast_address`). -/
def Net.last (W : Nat) (n : Net) : Nat := n.base + Net.size W n - 1

/-- The set of addresses covered by the block. -/
def Net.cover (W : Nat) (n : Net) : Set Nat := {a | n.base ≤ a ∧ a ≤ Net.last W n}

/-- Well-formedness of a block of family width `W`: mask length in
range, base address in range and aligned (no host bits set). -/
def Net.Valid (W : Nat) (n : Net) : Prop :=
  n.plen ≤ W ∧ n.base < 2 ^ W ∧ n.base % Net.size W n = 0

instance (W : Nat) (n : Net) : Decidable (n.Valid W) :=
  inferInstanceAs (Decidable (_ ∧ _ ∧ _))

/-- Python's ordering on networks: by base address, ties broken by mask
length ascending (wider block first). -/
def netLE (a b : Net) : Prop :=
  a.base < b.base ∨ (a.base = b.base ∧ a.plen ≤ b.plen)

instance (a b : Net) : Decidable (netLE a b) :=
  inferInstanceAs (Decidable (_ ∨ _))

/-- `net.supernet()`: the block one mask bit wider, with the freed bit
cleared; a `/0` block is its own supernet. -/
def Net.supernet (W : Nat) (n : Net) : Net :=
  if n.plen = 0 then n
  else ⟨n.base - n.base % 2 ^ (W - (n.plen - 1)), n.plen - 1⟩

/-- Membership test of an address in a block (`addr in net`). -/
def Net.containsAddr (W : Nat) (n : Net) (a : Nat) : Bool :=
  n.base ≤ a && a ≤ Net.last W n

/-- `a.overlaps(b)`: one of the two blocks holds an endpoint of the
other, i.e. the address ranges intersect. -/
def Net.overlapsB (W : Nat) (a b : Net) : Bool :=
  Net.containsAddr W a b.base || Net.containsAddr W a (Net.last W b) ||
  Net.containsAddr W b a.base || Net.containsAddr W b (Net.last W a)

/-- `a.supernet_of(b)`: the range of `b` lies inside the range of `a`. -/
def Net.supernetOf (W : Nat) (a b : Net) : Bool :=
  a.base ≤ b.base && Net.last W b ≤ Net.last W a

/-- The test applied by `coalesce_with_metadata` to decide whether two
blocks of different metadata groups are merged:
`overlaps or supernet_of in either direction`. -/
def mergeableB (W : Nat) (a b : Net) : Bool :=
  Net.overlapsB W a b || Net.supernetOf W a b || Net.supernetOf W b a

/-- Two blocks are range-disjoint (no shared address). -/
def Disj (W : Nat) (a b : Net) : Prop :=
  Net.last W a < b.base ∨ Net.last W b < a.base

instance (W : Nat) (a b : Net) : Decidable (Disj W a b) :=
  inferInstanceAs (Decidable (_ ∨ _))

/-- Exactly-combinable siblings: distinct blocks of the same positive
mask length sharing their immediate parent, so their union is exactly
that parent block. -/
def Sibling (W : Nat) (a b : Net) : Prop :=
  a ≠ b ∧ 0 < a.plen ∧ a.plen = b.plen ∧ Net.supernet W a = Net.supernet W b

instance (W : Nat) (a b : Net) : Decidable (Sibling W a b) :=
  inferInstanceAs (Decidable (_ ∧ _ ∧ _ ∧ _))

/-- Range containment: every address of `a` is an address of `b`. -/
def SubRange (W : Nat) (a b : Net) : Prop :=
  b.base ≤ a.base ∧ Net.last W a ≤ Net.last W b

instance (W : Nat) (a b : Net) : Decidable (SubRange W a b) :=
  inferInstanceAs (Decidable (_ ∧ _))

/-- Union of the addresses covered by a list of blocks. -/
def coverList (W : Nat) (l : List Net) : Set Nat :=
  {a | ∃ n ∈ l, a ∈ Net.cover W n}

/-- Dictionary access on the association list modelling the `subnets`
dict of `_collapse_addresses_internal`. -/
def lookupKey (k : Net) : List (Net × Net) → Option Net
  | [] => none
  | (k', v) :: rest => if k' = k then some v else lookupKey k rest

/-- Dictionary deletion (`del subnets[supernet]`). -/
def eraseKey (k : Net) : List (Net × Net) → List (Net × Net)
  | [] => []
  | (k', v) :: rest => if k' = k then rest else (k', v) :: eraseKey k rest

/-- The worklist loop of `_collapse_addresses_internal`.  The first
argument is the `to_merge` stack with its top at the head (Python pops
from the end of the list, so callers pass the input reversed); the
second is the `subnets` dictionary.  Each popped block is stored under
its supernet; finding a distinct block already stored there means the
two are siblings, so both are dropped and their parent is pushed. -/
def mergeLoop (W : Nat) : List Net → List (Net × Net) → List (Net × Net)
  | [], sn => sn
  | net :: rest, sn =>
    match h : lookupKey (Net.supernet W net) sn with
    | none => mergeLoop W rest ((Net.supernet W net, net) :: sn)
    | some existing =>
      if existing = net then mergeLoop W rest sn
      else mergeLoop W (Net.supernet W net :: rest) (eraseKey (Net.supernet W net) sn)
termination_by tm sn => 2 * tm.length + sn.length
decreasing_by
· simp only [List.length_cons]; omega
· simp only [List.length_cons]; omega
· have hlt : ∀ (l : List (Net × Net)) (k v : Net),
      lookupKey k l = some v → (eraseKey k l).length < l.length := by
    intro l
    induction l with
    | nil => intro k v hv; simp [lookupKey] at hv
    | cons p rest ih =>
      intro k v hv
      by_cases hk : p.1 = k
      · simp [eraseKey, hk]
      · have : lookupKey k rest = some v := by
          cases p with
          | mk k' v' => simpa [lookupKey, hk] using hv
        cases p with
        | mk k' v' =>
          simp only [eraseKey, if_neg hk, List.length_cons]
          exact Nat.succ_lt_succ (ih _ _ this)
  have := hlt sn (Net.supernet W net) existing h
  simp only [List.length_cons]; omega

/-- The final scan of `_collapse_addresses_internal` over the sorted
block list: a block whose highest address does not exceed the highest
address of the last emitted block is dropped (it is contained in it);
otherwise it is emitted and becomes the new comparison point. -/
def skipPass (W : Nat) : List Net → Option Nat → List Net
  | [], _ => []
  | n :: rest, none => n :: skipPass W rest (some (Net.last W n))
  | n :: rest, some bc =>
    if Net.last W n ≤ bc then skipPass W rest (some bc)
    else n :: skipPass W rest (some (Net.last W n))

/-- `coalesce_prefixes` / `ipaddress.collapse_addresses` on a list of
already-parsed networks of family width `W`: run the sibling-merging
worklist (stack top = end of the input list), sort the surviving
dictionary values ascending (a stable sort, modelled by insertion sort,
which agrees with Python's stable `sorted`), and drop contained
blocks. -/
def collapse (W : Nat) (nets : List Net) : List Net :=
  skipPass W (List.insertionSort netLE ((mergeLoop W nets.reverse []).map Prod.snd)) none

/-- Error kinds of the parser/normalizer (spec names for the
`ValueError`s raised by the `IPv4Network`/`IPv6Network` constructors). -/
inductive ParseError
  | malformed
  | nonCanonical
deriving DecidableEq

/-- Validation performed by `IPv4Network(p)` / `IPv6Network(p)` with the
default `strict=True` on the integer form `(base, plen)` of a textual
CIDR: the mask length must be in range, the address must fit the family
width, and no bit beyond the mask length may be set — otherwise the
input is rejected ("has host bits set"), never silently masked. -/
def parseNetwork (W base plen : Nat) : Except ParseError Net :=
  if W < plen then .error .malformed
  else if 2 ^ W ≤ base then .error .malformed
  else if base % 2 ^ (W - plen) ≠ 0 then .error .nonCanonical
  else .ok ⟨base, plen⟩

/-- One record of the `prefixes` / `ipv6_prefixes` input array: the
network (already in integer form) and the three optional metadata
fields. -/
structure Entry where
  net : Net
  region : Option String
  service : Option String
  nbg : Option String
deriving DecidableEq

/-- The metadata key used for grouping, with the `.get` defaults of the
source applied to absent fields. -/
def Entry.mkey (e : Entry) : String × String × String :=
  (e.region.getD "other", e.service.getD "OTHER", e.nbg.getD "other")

/-- A network with resolved metadata: element of the intermediate
`networks_with_metadata` list and of the final output. -/
structure Tagged where
  net : Net
  region : String
  service : String
  nbg : String
deriving DecidableEq

/-- The metadata key of a tagged network. -/
def Tagged.mkey (t : Tagged) : String × String × String :=
  (t.region, t.service, t.nbg)

/-- The sentinel metadata assigned to heterogeneous merges. -/
def sentinelKey : String × String × String := ("other", "OTHER", "other")

/-- `grouped[metadata_key].append(entry[prefix_key])`: append a network
to its key's group, creating the group at the end on first occurrence
(Python dicts preserve insertion order). -/
def addToGroup (k : String × String × String) (n : Net) :
    List ((String × String × String) × List Net) →
    List ((String × String × String) × List Net)
  | [] => [(k, [n])]
  | (k', ns) :: rest =>
    if k' = k then (k', ns ++ [n]) :: rest else (k', ns) :: addToGroup k n rest

/-- Left-to-right accumulation of the grouping loop. -/
def groupAux (acc : List ((String × String × String) × List Net)) :
    List Entry → List ((String × String × String) × List Net)
  | [] => acc
  | e :: rest => groupAux (addToGroup e.mkey e.net acc) rest

/-- The `grouped` dictionary of `coalesce_with_metadata`. -/
def groupEntries (entries : List Entry) :
    List ((String × String × String) × List Net) :=
  groupAux [] entries

/-- The `networks_with_metadata` list: each group collapsed and every
resulting block re-tagged with the group's key. -/
def intermediate (W : Nat) (entries : List Entry) : List Tagged :=
  (groupEntries entries).flatMap
    (fun kns => (collapse W kns.2).map (fun n => ⟨n, kns.1.1, kns.1.2.1, kns.1.2.2⟩))

/-- The body of the `if can_merge:` branch: collapse the leader's block
together with all matched blocks, and tag every resulting block with
the leader's metadata when every matched member carries the leader's
exact key, with the sentinel otherwise. -/
def mergeGroup (W : Nat) (e : Tagged) (matched : List Tagged) : List Tagged :=
  let ok := matched.all fun f =>
    f.region = e.region && f.service = e.service && f.nbg = e.nbg
  (collapse W (e.net :: matched.map Tagged.net)).map fun n =>
    if ok then ⟨n, e.region, e.service, e.nbg⟩
    else ⟨n, "other", "OTHER", "other"⟩

/-- The cross-group reconciliation scan: the head entry collects every
later entry whose network is mergeable with its own (those are marked
consumed, i.e. removed from the rest of the scan); with no match it
passes through unchanged, otherwise the merge-set is collapsed and
re-tagged by `mergeGroup`. -/
def crossMerge (W : Nat) : List Tagged → List Tagged
  | [] => []
  | e :: rest =>
    let matched := rest.filter fun f => mergeableB W e.net f.net
    if matched.isEmpty then e :: crossMerge W rest
    else
      mergeGroup W e matched ++
        crossMerge W (rest.filter fun f => !mergeableB W e.net f.net)
termination_by l => l.length
decreasing_by
· simp only [List.length_cons]; omega
· have := List.length_filter_le (fun f => !mergeableB W e.net f.net) rest
  simp only [List.length_cons]; omega

/-- `coalesce_with_metadata` for one family of width `W`: group by
metadata key, collapse per group, reconcile across groups, and sort the
result ascending by network, keyed on the network only and stable like
`result.sort(key=...)` (modelled by insertion sort, which is stable). -/
def coalesceWithMetadata (W : Nat) (entries : List Entry) : List Tagged :=
  List.insertionSort (fun a b => netLE a.net b.net)
    (crossMerge W (intermediate W entries))

/-! ### Basic facts about blocks, ranges and coverage -/

theorem Net.size_pos (W : Nat) (n : Net) : 0 < Net.size W n :=
  Nat.pos_pow_of_pos _ (by norm_num)

theorem Net.base_le_last (W : Nat) (n : Net) : n.base ≤ Net.last W n := by
  have := Net.size_pos W n
  unfold Net.last; omega

theorem mem_cover_iff (W : Nat) (n : Net) (a : Nat) :
    a ∈ Net.cover W n ↔ n.base ≤ a ∧ a < n.base + Net.size W n := by
  have := Net.size_pos W n
  simp only [Net.cover, Net.last, Set.mem_setOf_eq]
  omega

theorem dvd_add_le_of_lt {d a b : Nat} (hd : d ∣ a) (hb : d ∣ b) (h : a < b) :
    a + d ≤ b := by
  have h1 : d ∣ b - a := Nat.dvd_sub' hb hd
  have h2 : 0 < b - a := by omega
  have := Nat.le_of_dvd h2 h1
  omega

theorem Net.valid_last_lt {W : Nat} {n : Net} (hv : n.Valid W) :
    Net.last W n < 2 ^ W := by
  have hs := Net.size_pos W n
  have hdvd : Net.size W n ∣ 2 ^ W := Nat.pow_dvd_pow 2 (Nat.sub_le _ _)
  have hb : Net.size W n ∣ n.base := Nat.dvd_of_mod_eq_zero hv.2.2
  have := dvd_add_le_of_lt hb hdvd hv.2.1
  unfold Net.last; omega

theorem coverList_nil (W : Nat) : coverList W [] = ∅ := by
  ext a; simp [coverList]

theorem coverList_cons (W : Nat) (n : Net) (l : List Net) :
    coverList W (n :: l) = Net.cover W n ∪ coverList W l := by
  ext a; simp [coverList, or_and_right, exists_or]

theorem coverList_append (W : Nat) (l₁ l₂ : List Net) :
    coverList W (l₁ ++ l₂) = coverList W l₁ ∪ coverList W l₂ := by
  ext a; simp [coverList, or_and_right, exists_or]

theorem mem_coverList_iff (W : Nat) (l : List Net) (a : Nat) :
    a ∈ coverList W l ↔ ∃ n ∈ l, a ∈ Net.cover W n := Iff.rfl

theorem coverList_congr {W : Nat} {l₁ l₂ : List Net}
    (h : ∀ x, x ∈ l₁ ↔ x ∈ l₂) : coverList W l₁ = coverList W l₂ := by
  ext a
  simp only [mem_coverList_iff]
  constructor
  · rintro ⟨n, hn, ha⟩; exact ⟨n, (h n).1 hn, ha⟩
  · rintro ⟨n, hn, ha⟩; exact ⟨n, (h n).2 hn, ha⟩

theorem coverList_perm {W : Nat} {l₁ l₂ : List Net} (h : l₁.Perm l₂) :
    coverList W l₁ = coverList W l₂ :=
  coverList_congr fun x => h.mem_iff

theorem cover_subset_coverList {W : Nat} {l : List Net} {n : Net} (h : n ∈ l) :
    Net.cover W n ⊆ coverList W l :=
  fun a ha => ⟨n, h, ha⟩

theorem coverList_subset_of_sublist {W : Nat} {l₁ l₂ : List Net}
    (h : l₁.Sublist l₂) : coverList W l₁ ⊆ coverList W l₂ := by
  rintro a ⟨n, hn, ha⟩
  exact ⟨n, h.mem hn, ha⟩

/-- Two well-formed blocks sharing an address are range-comparable:
the wider (or equally wide) one contains the other. -/
theorem range_sub_of_plen_le {W : Nat} {m n : Net} (hm : m.Valid W) (hn : n.Valid W)
    (hp : n.plen ≤ m.plen) {a : Nat}
    (ham : a ∈ Net.cover W m) (han : a ∈ Net.cover W n) : SubRange W m n := by
  have hsm := Net.size_pos W m
  have hsn := Net.size_pos W n
  have hdvd : Net.size W m ∣ Net.size W n :=
    Nat.pow_dvd_pow 2 (Nat.sub_le_sub_left hp W)
  have hmb : Net.size W m ∣ m.base := Nat.dvd_of_mod_eq_zero hm.2.2
  have hnb : Net.size W n ∣ n.base := Nat.dvd_of_mod_eq_zero hn.2.2
  rw [mem_cover_iff] at ham han
  have hmb' : Net.size W m ∣ n.base := hdvd.trans hnb
  have h1 : n.base ≤ m.base := by
    by_contra hlt
    have := dvd_add_le_of_lt hmb hmb' (by omega)
    omega
  have h2 : m.base + Net.size W m ≤ n.base + Net.size W n := by
    by_contra hlt
    have hd2 : Net.size W m ∣ n.base + Net.size W n := Nat.dvd_add hmb' hdvd
    have hd3 : Net.size W m ∣ m.base + Net.size W m := Nat.dvd_add hmb dvd_rfl
    have := dvd_add_le_of_lt hd2 hd3 (by omega)
    omega
  exact ⟨h1, by unfold Net.last; omega⟩

theorem range_compare {W : Nat} {m n : Net} (hm : m.Valid W) (hn : n.Valid W)
    {a : Nat} (ham : a ∈ Net.cover W m) (han : a ∈ Net.cover W n) :
    SubRange W m n ∨ SubRange W n m := by
  by_cases hp : n.plen ≤ m.plen
  · exact Or.inl (range_sub_of_plen_le hm hn hp ham han)
  · exact Or.inr (range_sub_of_plen_le hn hm (by omega) han ham)

theorem not_disj_of_common {W : Nat} {m n : Net} {a : Nat}
    (ham : a ∈ Net.cover W m) (han : a ∈ Net.cover W n) : ¬ Disj W m n := by
  simp only [Net.cover, Set.mem_setOf_eq] at ham han
  intro h
  rcases h with h | h <;> omega

theorem disj_left_of_cover {W : Nat} {m n : Net} {a : Nat} (h : Disj W m n)
    (ham : a ∈ Net.cover W m) : a ∉ Net.cover W n :=
  fun han => not_disj_of_common ham han h

theorem subRange_cover {W : Nat} {m n : Net} (h : SubRange W m n) :
    Net.cover W m ⊆ Net.cover W n := by
  intro a ha
  obtain ⟨hb, hl⟩ := h
  simp only [Net.cover, Set.mem_setOf_eq] at ha ⊢
  omega

theorem disj_of_not_subRange {W : Nat} {m n : Net} (hm : m.Valid W) (hn : n.Valid W)
    (h1 : ¬ SubRange W m n) (h2 : ¬ SubRange W n m) : Disj W m n := by
  by_contra hd
  simp only [Disj, not_or, not_lt] at hd
  have hbase : m.base ≤ Net.last W m := Net.base_le_last W m
  have hbase' : n.base ≤ Net.last W n := Net.base_le_last W n
  have hcommon : ∃ a, a ∈ Net.cover W m ∧ a ∈ Net.cover W n := by
    refine ⟨max m.base n.base, ?_, ?_⟩ <;>
      simp only [Net.cover, Set.mem_setOf_eq] <;> omega
  obtain ⟨a, ham, han⟩ := hcommon
  rcases range_compare hm hn ham han with h | h
  · exact h1 h
  · exact h2 h

theorem subRange_size_le {W : Nat} {m n : Net} (h : SubRange W m n) :
    Net.size W m ≤ Net.size W n := by
  have hsm := Net.size_pos W m
  have hsn := Net.size_pos W n
  obtain ⟨h1, h2⟩ := h
  unfold Net.last at h2
  omega

theorem size_inj_plen {W : Nat} {m n : Net} (hm : m.plen ≤ W) (hn : n.plen ≤ W)
    (h : Net.size W m = Net.size W n) : m.plen = n.plen := by
  unfold Net.size at h
  have := Nat.pow_right_injective (le_refl 2) h
  omega

theorem subRange_antisymm {W : Nat} {m n : Net} (hm : m.Valid W) (hn : n.Valid W)
    (h1 : SubRange W m n) (h2 : SubRange W n m) : m = n := by
  have hb : m.base = n.base := le_antisymm h2.1 h1.1
  have hl : Net.last W m = Net.last W n := le_antisymm h1.2 h2.2
  have hsm := Net.size_pos W m
  have hsn := Net.size_pos W n
  have hs : Net.size W m = Net.size W n := by
    unfold Net.last at hl; omega
  have hp := size_inj_plen hm.1 hn.1 hs
  cases m; cases n
  simp_all

theorem subRange_refl (W : Nat) (n : Net) : SubRange W n n := ⟨le_refl _, le_refl _⟩

theorem subRange_trans {W : Nat} {a b c : Net}
    (h1 : SubRange W a b) (h2 : SubRange W b c) : SubRange W a c :=
  ⟨le_trans h2.1 h1.1, le_trans h1.2 h2.2⟩

/-! ### Supernets and siblings -/

theorem Net.supernet_eq_of_pos {W : Nat} {n : Net} (h : 0 < n.plen) :
    Net.supernet W n = ⟨n.base - n.base % 2 ^ (W - (n.plen - 1)), n.plen - 1⟩ := by
  unfold Net.supernet
  rw [if_neg (by omega)]

theorem Net.supernet_plen_of_pos {W : Nat} {n : Net} (h : 0 < n.plen) :
    (Net.supernet W n).plen = n.plen - 1 := by
  rw [Net.supernet_eq_of_pos h]

theorem Net.supernet_valid {W : Nat} {n : Net} (hv : n.Valid W) :
    (Net.supernet W n).Valid W := by
  by_cases h0 : n.plen = 0
  · unfold Net.supernet; rw [if_pos h0]; exact hv
  · rw [Net.supernet_eq_of_pos (by omega)]
    have hdm := Nat.div_add_mod n.base (2 ^ (W - (n.plen - 1)))
    refine ⟨by have := hv.1; simp only; omega, ?_, ?_⟩
    · simp only
      have := Nat.sub_le n.base (n.base % 2 ^ (W - (n.plen - 1)))
      have := hv.2.1
      omega
    · show (n.base - n.base % 2 ^ (W - (n.plen - 1))) % Net.size W _ = 0
      unfold Net.size
      simp only
      rw [show n.base - n.base % 2 ^ (W - (n.plen - 1)) =
        2 ^ (W - (n.plen - 1)) * (n.base / 2 ^ (W - (n.plen - 1))) by omega]
      exact Nat.mul_mod_right _ _

theorem valid_plen_zero_base {W : Nat} {n : Net} (hv : n.Valid W) (h : n.plen = 0) :
    n.base = 0 := by
  have h1 := hv.2.1
  have h2 := hv.2.2
  unfold Net.size at h2
  rw [h, Nat.sub_zero] at h2
  rw [Nat.mod_eq_of_lt h1] at h2
  exact h2

theorem mod_double_cases {h b : Nat} (hb : b % h = 0) :
    b % (2 * h) = 0 ∨ b % (2 * h) = h := by
  obtain ⟨k, rfl⟩ := Nat.dvd_of_mod_eq_zero hb
  rw [Nat.mul_comm 2 h, Nat.mul_mod_mul_left h k 2]
  rcases Nat.mod_two_eq_zero_or_one k with h2 | h2 <;> rw [h2] <;> omega


theorem two_pow_sub_eq {W a b : Nat} (h1 : b = a + 1) (h2 : b ≤ W) :
    2 ^ (W - a) = 2 * 2 ^ (W - b) := by
  generalize hk : W - b = k
  rw [show W - a = k + 1 by omega, pow_succ]
  ring

theorem supernet_child_left {W p b : Nat} (hb : b % 2 ^ (W - p) = 0) :
    Net.supernet W ⟨b, p + 1⟩ = ⟨b, p⟩ := by
  rw [Net.supernet_eq_of_pos (Nat.succ_pos p)]
  show (⟨b - b % 2 ^ (W - (p + 1 - 1)), p + 1 - 1⟩ : Net) = ⟨b, p⟩
  rw [Nat.add_sub_cancel, hb, Nat.sub_zero]

theorem supernet_child_right {W p b : Nat} (hW : p + 1 ≤ W)
    (hb : b % 2 ^ (W - p) = 0) :
    Net.supernet W ⟨b + 2 ^ (W - (p + 1)), p + 1⟩ = ⟨b, p⟩ := by
  have hM : 2 ^ (W - p) = 2 * 2 ^ (W - (p + 1)) := two_pow_sub_eq rfl hW
  have hpos : 0 < 2 ^ (W - (p + 1)) := Nat.pos_pow_of_pos _ (by norm_num)
  have hmod : (b + 2 ^ (W - (p + 1))) % 2 ^ (W - p) = 2 ^ (W - (p + 1)) := by
    obtain ⟨k, hk⟩ := Nat.dvd_of_mod_eq_zero hb
    have he : b + 2 ^ (W - (p + 1)) =
        2 ^ (W - (p + 1)) + 2 ^ (W - p) * k := by rw [hk]; ring
    rw [he, Nat.add_mul_mod_self_left]
    exact Nat.mod_eq_of_lt (by omega)
  rw [Net.supernet_eq_of_pos (Nat.succ_pos p)]
  show (⟨b + 2 ^ (W - (p + 1)) - (b + 2 ^ (W - (p + 1))) % 2 ^ (W - (p + 1 - 1)),
      p + 1 - 1⟩ : Net) = ⟨b, p⟩
  rw [Nat.add_sub_cancel, hmod, Nat.add_sub_cancel]

theorem cover_union_of_same_supernet {W : Nat} {x y : Net} (hx : x.Valid W)
    (hy : y.Valid W) (hne : x ≠ y) (hs : Net.supernet W x = Net.supernet W y) :
    Net.cover W x ∪ Net.cover W y = Net.cover W (Net.supernet W x) := by
  by_cases hx0 : x.plen = 0
  · have hxx : Net.supernet W x = x := by unfold Net.supernet; rw [if_pos hx0]
    by_cases hy0 : y.plen = 0
    · exfalso
      have hyy : Net.supernet W y = y := by unfold Net.supernet; rw [if_pos hy0]
      exact hne (by rw [← hxx, hs, hyy])
    · have hsub : SubRange W y x := by
        refine ⟨?_, ?_⟩
        · rw [valid_plen_zero_base hx hx0]; omega
        · have h1 := Net.valid_last_lt hy
          have h2 : Net.last W x = 2 ^ W - 1 := by
            unfold Net.last Net.size
            rw [valid_plen_zero_base hx hx0, hx0, Nat.sub_zero]
            omega
          omega
      rw [hxx, Set.union_eq_self_of_subset_right (subRange_cover hsub)]
  · by_cases hy0 : y.plen = 0
    · have hyy : Net.supernet W y = y := by unfold Net.supernet; rw [if_pos hy0]
      have hsy : Net.supernet W x = y := by rw [hs, hyy]
      have hsub : SubRange W x y := by
        refine ⟨?_, ?_⟩
        · rw [valid_plen_zero_base hy hy0]; omega
        · have h1 := Net.valid_last_lt hx
          have h2 : Net.last W y = 2 ^ W - 1 := by
            unfold Net.last Net.size
            rw [valid_plen_zero_base hy hy0, hy0, Nat.sub_zero]
            omega
          omega
      rw [hsy, Set.union_eq_self_of_subset_left (subRange_cover hsub)]
    · -- both mask lengths positive: the two blocks are the two halves of
      -- their common parent
      have hpp : x.plen = y.plen := by
        have h1 := @Net.supernet_plen_of_pos W x (by omega)
        have h2 := @Net.supernet_plen_of_pos W y (by omega)
        rw [hs] at h1
        omega
      have hpW : x.plen ≤ W := hx.1
      have hsz : Net.size W x = 2 ^ (W - x.plen) := rfl
      have hszy : Net.size W y = 2 ^ (W - x.plen) := by unfold Net.size; rw [hpp]
      have hpos : 0 < 2 ^ (W - x.plen) := Nat.pos_pow_of_pos _ (by norm_num)
      have hM : 2 ^ (W - (x.plen - 1)) = 2 * 2 ^ (W - x.plen) :=
        two_pow_sub_eq (by omega) hpW
      have hMy : 2 ^ (W - (y.plen - 1)) = 2 * 2 ^ (W - x.plen) := by
        rw [← hpp]; exact hM
      have hbx : x.base % 2 ^ (W - x.plen) = 0 := by rw [← hsz]; exact hx.2.2
      have hby : y.base % 2 ^ (W - x.plen) = 0 := by rw [← hszy]; exact hy.2.2
      have hcx := mod_double_cases hbx
      have hcy := mod_double_cases hby
      have hsx := @Net.supernet_eq_of_pos W x (by omega)
      have hsy := @Net.supernet_eq_of_pos W y (by omega)
      have hbase : x.base - x.base % (2 * 2 ^ (W - x.plen)) =
          y.base - y.base % (2 * 2 ^ (W - x.plen)) := by
        have hc := congrArg Net.base hs
        rw [hsx, hsy] at hc
        simp only at hc
        rw [hM, hMy] at hc
        exact hc
      have hsupb : (Net.supernet W x).base =
          x.base - x.base % (2 * 2 ^ (W - x.plen)) := by
        rw [hsx]
        simp only
        rw [hM]
      have hsupP : (Net.supernet W x).plen = x.plen - 1 :=
        Net.supernet_plen_of_pos (by omega)
      have hsupS : Net.size W (Net.supernet W x) = 2 * 2 ^ (W - x.plen) := by
        unfold Net.size
        rw [hsupP]
        exact hM
      have hsupl : Net.last W (Net.supernet W x) =
          (Net.supernet W x).base + 2 * 2 ^ (W - x.plen) - 1 := by
        unfold Net.last
        rw [hsupS]
      have hlx : Net.last W x = x.base + 2 ^ (W - x.plen) - 1 := by
        unfold Net.last
        rw [hsz]
      have hly : Net.last W y = y.base + 2 ^ (W - x.plen) - 1 := by
        unfold Net.last
        rw [hszy]
      have hmodx := Nat.mod_le x.base (2 * 2 ^ (W - x.plen))
      have hmody := Nat.mod_le y.base (2 * 2 ^ (W - x.plen))
      have hxy : x.base ≠ y.base := by
        intro hb
        exact hne (by cases x; cases y; simp_all)
      rcases hcx with hcx | hcx <;> rcases hcy with hcy | hcy
      · exact absurd (by omega) hxy
      · -- x is the lower half, y the upper half
        ext a
        simp only [Set.mem_union, Net.cover, Set.mem_setOf_eq]
        rw [hcx] at hbase hsupb
        rw [hcy] at hbase
        omega
      · -- y is the lower half, x the upper half
        ext a
        simp only [Set.mem_union, Net.cover, Set.mem_setOf_eq]
        rw [hcx] at hbase hsupb
        rw [hcy] at hbase
        omega
      · exact absurd (by omega) hxy

/-! ### Unfolding and dictionary lemmas for the worklist loop -/

theorem mergeLoop_nil (W : Nat) (sn : List (Net × Net)) : mergeLoop W [] sn = sn := by
  simp [mergeLoop]

theorem mergeLoop_cons_none (W : Nat) (net : Net) (rest : List Net)
    (sn : List (Net × Net)) (h : lookupKey (Net.supernet W net) sn = none) :
    mergeLoop W (net :: rest) sn = mergeLoop W rest ((Net.supernet W net, net) :: sn) := by
  conv_lhs => rw [mergeLoop.eq_def]
  simp only
  split
  · rfl
  · rename_i existing heq
    rw [h] at heq
    cases heq

theorem mergeLoop_cons_dup (W : Nat) (net : Net) (rest : List Net)
    (sn : List (Net × Net)) (h : lookupKey (Net.supernet W net) sn = some net) :
    mergeLoop W (net :: rest) sn = mergeLoop W rest sn := by
  conv_lhs => rw [mergeLoop.eq_def]
  simp only
  split
  · rename_i heq
    rw [h] at heq
    cases heq
  · rename_i existing heq
    rw [h] at heq
    cases heq
    rw [if_pos rfl]

theorem mergeLoop_cons_merge (W : Nat) (net existing : Net) (rest : List Net)
    (sn : List (Net × Net))
    (h : lookupKey (Net.supernet W net) sn = some existing) (hne : existing ≠ net) :
    mergeLoop W (net :: rest) sn =
      mergeLoop W (Net.supernet W net :: rest) (eraseKey (Net.supernet W net) sn) := by
  conv_lhs => rw [mergeLoop.eq_def]
  simp only
  split
  · rename_i heq
    rw [h] at heq
    cases heq
  · rename_i ex heq
    rw [h] at heq
    cases heq
    rw [if_neg hne]

theorem lookupKey_none_not_mem {k : Net} {l : List (Net × Net)}
    (h : lookupKey k l = none) : ∀ p ∈ l, p.1 ≠ k := by
  induction l with
  | nil => intro p hp; cases hp
  | cons q rest ih =>
    intro p hp
    cases q with
    | mk k' v' =>
      by_cases hk : k' = k
      · rw [lookupKey, if_pos hk] at h
        cases h
      · rw [lookupKey, if_neg hk] at h
        rcases List.mem_cons.mp hp with rfl | hp'
        · exact hk
        · exact ih h p hp'

theorem lookupKey_some_decomp {k v : Net} {l : List (Net × Net)}
    (h : lookupKey k l = some v) :
    ∃ l1 l2, l = l1 ++ (k, v) :: l2 ∧ eraseKey k l = l1 ++ l2 := by
  induction l with
  | nil => cases h
  | cons q rest ih =>
    cases q with
    | mk k' v' =>
      by_cases hk : k' = k
      · rw [lookupKey, if_pos hk] at h
        cases h
        subst hk
        exact ⟨[], rest, rfl, by rw [eraseKey, if_pos rfl]; rfl⟩
      · rw [lookupKey, if_neg hk] at h
        obtain ⟨l1, l2, hdec, herase⟩ := ih h
        refine ⟨(k', v') :: l1, l2, by rw [hdec]; rfl, ?_⟩
        rw [eraseKey, if_neg hk, herase]
        rfl

/-! ### Invariants of the worklist loop -/

theorem mergeLoop_inv (W : Nat) (tm : List Net) (sn : List (Net × Net)) :
    (∀ n ∈ tm, n.Valid W) → (∀ p ∈ sn, (p.2).Valid W) →
    (∀ p ∈ sn, p.1 = Net.supernet W p.2) → (sn.map Prod.fst).Nodup →
    (∀ p ∈ mergeLoop W tm sn, (p.2).Valid W) ∧
    (∀ p ∈ mergeLoop W tm sn, p.1 = Net.supernet W p.2) ∧
    ((mergeLoop W tm sn).map Prod.fst).Nodup ∧
    coverList W ((mergeLoop W tm sn).map Prod.snd) =
      coverList W (tm ++ sn.map Prod.snd) := by
  induction tm, sn using mergeLoop.induct W with
  | case1 sn =>
    intro _ h2 h3 h4
    rw [mergeLoop_nil]
    exact ⟨h2, h3, h4, rfl⟩
  | case2 net rest sn hlook ih =>
    intro h1 h2 h3 h4
    rw [mergeLoop_cons_none W net rest sn hlook]
    have hvnet : net.Valid W := h1 net (by simp)
    obtain ⟨i1, i2, i3, i4⟩ := ih (fun n hn => h1 n (by simp [hn]))
      (by
        intro p hp
        rcases List.mem_cons.mp hp with rfl | hp'
        · exact hvnet
        · exact h2 p hp')
      (by
        intro p hp
        rcases List.mem_cons.mp hp with rfl | hp'
        · rfl
        · exact h3 p hp')
      (by
        simp only [List.map_cons]
        refine List.Nodup.cons ?_ h4
        intro hmem
        obtain ⟨p, hp, hpk⟩ := List.mem_map.mp hmem
        exact lookupKey_none_not_mem hlook p hp hpk)
    refine ⟨i1, i2, i3, ?_⟩
    rw [i4]
    apply coverList_congr
    intro x
    simp only [List.mem_append, List.mem_cons, List.map_cons]
    tauto
  | case3 rest sn existing hlook ih =>
    intro h1 h2 h3 h4
    rw [mergeLoop_cons_dup W existing rest sn hlook]
    obtain ⟨i1, i2, i3, i4⟩ := ih (fun n hn => h1 n (by simp [hn])) h2 h3 h4
    refine ⟨i1, i2, i3, ?_⟩
    rw [i4]
    obtain ⟨l1, l2, hdec, _⟩ := lookupKey_some_decomp hlook
    have hmem : existing ∈ sn.map Prod.snd := by
      rw [hdec]
      simp
    ext a
    simp only [mem_coverList_iff, List.mem_append, List.mem_cons]
    constructor
    · rintro ⟨n, hn, ha⟩
      rcases hn with hn | hn
      · exact ⟨n, Or.inl (Or.inr hn), ha⟩
      · exact ⟨n, Or.inr hn, ha⟩
    · rintro ⟨n, hn, ha⟩
      rcases hn with (rfl | hn) | hn
      · exact ⟨n, Or.inr hmem, ha⟩
      · exact ⟨n, Or.inl hn, ha⟩
      · exact ⟨n, Or.inr hn, ha⟩
  | case4 net rest sn existing hlook hne ih =>
    intro h1 h2 h3 h4
    rw [mergeLoop_cons_merge W net existing rest sn hlook hne]
    have hvnet : net.Valid W := h1 net (by simp)
    obtain ⟨l1, l2, hdec, herase⟩ := lookupKey_some_decomp hlook
    have hmemp : (Net.supernet W net, existing) ∈ sn := by
      rw [hdec]
      simp
    have hvex : existing.Valid W := h2 _ hmemp
    have hkex : Net.supernet W net = Net.supernet W existing := h3 _ hmemp
    have hsupv : (Net.supernet W net).Valid W := Net.supernet_valid hvnet
    have hsubl : (eraseKey (Net.supernet W net) sn).Sublist sn := by
      rw [herase, hdec]
      exact (List.sublist_cons_self _ _).append_left l1
    obtain ⟨i1, i2, i3, i4⟩ := ih
      (by
        intro n hn
        rcases List.mem_cons.mp hn with rfl | hn'
        · exact hsupv
        · exact h1 n (by simp [hn']))
      (fun p hp => h2 p (hsubl.mem hp))
      (fun p hp => h3 p (hsubl.mem hp))
      ((h4.sublist (hsubl.map Prod.fst)))
    refine ⟨i1, i2, i3, ?_⟩
    rw [i4]
    have hcu : Net.cover W (Net.supernet W net) =
        Net.cover W existing ∪ Net.cover W net := by
      rw [hkex]
      exact (cover_union_of_same_supernet hvex hvnet hne hkex.symm).symm
    rw [herase, hdec]
    simp only [List.map_append, List.map_cons, coverList_cons, coverList_append, hcu]
    ext a
    simp only [Set.mem_union]
    tauto

/-! ### The sorting order -/

instance : IsTotal Net netLE :=
  ⟨by intro a b; unfold netLE; omega⟩

instance : IsTrans Net netLE :=
  ⟨by intro a b c h1 h2; unfold netLE at *; omega⟩

theorem netLE_antisymm : ∀ {a b : Net}, netLE a b → netLE b a → a = b := by
  intro a b h1 h2
  have hb : a.base = b.base := by unfold netLE at h1 h2; omega
  have hp : a.plen = b.plen := by unfold netLE at h1 h2; omega
  cases a; cases b; simp_all

instance : IsAntisymm Net netLE := ⟨fun _ _ h1 h2 => netLE_antisymm h1 h2⟩

theorem pairwise_netLE_sort (l : List Net) :
    List.Pairwise netLE (List.insertionSort netLE l) :=
  List.sorted_insertionSort netLE l

/-! ### The final scan -/

theorem skipPass_sublist (W : Nat) (l : List Net) (b : Option Nat) :
    (skipPass W l b).Sublist l := by
  induction l, b using skipPass.induct W with
  | case1 b => rw [skipPass.eq_def]
  | case2 n rest ih =>
    rw [skipPass]
    exact ih.cons₂ n
  | case3 n rest bc hle ih =>
    rw [skipPass, if_pos hle]
    exact ih.cons n
  | case4 n rest bc hgt ih =>
    rw [skipPass, if_neg hgt]
    exact ih.cons₂ n

theorem skipPass_last_lt (W : Nat) (l : List Net) :
    ∀ (bc : Nat), ∀ m ∈ skipPass W l (some bc), bc < Net.last W m := by
  induction l with
  | nil =>
    intro bc m hm
    rw [skipPass.eq_def] at hm
    cases hm
  | cons n rest ih =>
    intro bc m hm
    rw [skipPass] at hm
    by_cases hle : Net.last W n ≤ bc
    · rw [if_pos hle] at hm
      exact ih bc m hm
    · rw [if_neg hle] at hm
      rcases List.mem_cons.mp hm with rfl | hm'
      · omega
      · have := ih (Net.last W n) m hm'
        omega

theorem disj_of_sorted_lt {W : Nat} {n m : Net} (hn : n.Valid W) (hm : m.Valid W)
    (hle : netLE n m) (hlt : Net.last W n < Net.last W m) : Disj W n m := by
  apply disj_of_not_subRange hn hm
  · intro hsub
    rcases hle with h | ⟨hb, hp⟩
    · have := hsub.1
      omega
    · have hsize : Net.size W m ≤ Net.size W n :=
        Nat.pow_le_pow_right (by norm_num) (Nat.sub_le_sub_left hp W)
      have h1 := Net.size_pos W n
      have h2 := Net.size_pos W m
      unfold Net.last at hlt
      omega
  · intro hsub
    have := hsub.2
    omega

theorem skipPass_pairwise_disj (W : Nat) (l : List Net)
    (hv : ∀ n ∈ l, n.Valid W) (hs : List.Pairwise netLE l) :
    ∀ b : Option Nat, List.Pairwise (Disj W) (skipPass W l b) := by
  induction l with
  | nil =>
    intro b
    rw [skipPass.eq_def]
    exact List.Pairwise.nil
  | cons n rest ih =>
    intro b
    have hvrest : ∀ m ∈ rest, m.Valid W := fun m hm => hv m (by simp [hm])
    have hsrest : List.Pairwise netLE rest := hs.of_cons
    have hvn : n.Valid W := hv n (by simp)
    have hhead : ∀ m ∈ rest, netLE n m := (List.pairwise_cons.mp hs).1
    have hkeep : ∀ bc', bc' = Net.last W n →
        List.Pairwise (Disj W) (n :: skipPass W rest (some bc')) := by
      intro bc' hbc'
      refine List.Pairwise.cons ?_ (ih hvrest hsrest _)
      intro m hm
      have hmem : m ∈ rest := (skipPass_sublist W rest _).mem hm
      have hlast := skipPass_last_lt W rest bc' m hm
      exact disj_of_sorted_lt hvn (hvrest m hmem) (hhead m hmem) (by omega)
    cases b with
    | none =>
      rw [skipPass]
      exact hkeep _ rfl
    | some bc =>
      rw [skipPass]
      by_cases hle : Net.last W n ≤ bc
      · rw [if_pos hle]
        exact ih hvrest hsrest _
      · rw [if_neg hle]
        exact hkeep _ rfl

theorem skipPass_cover_some (W : Nat) (l : List Net) (hs : List.Pairwise netLE l) :
    ∀ (bc : Nat), ∀ a ∈ coverList W l,
      a ∈ coverList W (skipPass W l (some bc)) ∨ a ≤ bc := by
  induction l with
  | nil =>
    intro bc a ha
    rw [coverList_nil] at ha
    cases ha
  | cons n rest ih =>
    intro bc a ha
    rw [coverList_cons] at ha
    rw [skipPass]
    by_cases hle : Net.last W n ≤ bc
    · rw [if_pos hle]
      rcases ha with ha | ha
      · right
        have : a ≤ Net.last W n := ha.2
        omega
      · exact ih hs.of_cons bc a ha
    · rw [if_neg hle]
      rcases ha with ha | ha
      · left
        rw [coverList_cons]
        exact Or.inl ha
      · rcases ih hs.of_cons (Net.last W n) a ha with h | h
        · left
          rw [coverList_cons]
          exact Or.inr h
        · left
          rw [coverList_cons]
          refine Or.inl ⟨?_, h⟩
          obtain ⟨m, hm, ham⟩ := ha
          have := (List.pairwise_cons.mp hs).1 m hm
          have hmb : n.base ≤ m.base := by unfold netLE at this; omega
          have := ham.1
          omega

theorem skipPass_cover_none (W : Nat) (l : List Net) (hs : List.Pairwise netLE l) :
    coverList W (skipPass W l none) = coverList W l := by
  apply Set.Subset.antisymm
  · exact coverList_subset_of_sublist (skipPass_sublist W l none)
  · cases l with
    | nil => rw [skipPass.eq_def]
    | cons n rest =>
      rw [skipPass]
      intro a ha
      rw [coverList_cons] at ha
      rw [coverList_cons]
      rcases ha with ha | ha
      · exact Or.inl ha
      · rcases skipPass_cover_some W rest hs.of_cons (Net.last W n) a ha with h | h
        · exact Or.inr h
        · refine Or.inl ⟨?_, h⟩
          obtain ⟨m, hm, ham⟩ := ha
          have := (List.pairwise_cons.mp hs).1 m hm
          have hmb : n.base ≤ m.base := by unfold netLE at this; omega
          have := ham.1
          omega

/-! ### Properties of `collapse` -/

theorem collapse_mem_values {W : Nat} {nets : List Net} {m : Net}
    (hm : m ∈ collapse W nets) :
    m ∈ (mergeLoop W nets.reverse []).map Prod.snd := by
  have h1 : m ∈ List.insertionSort netLE ((mergeLoop W nets.reverse []).map Prod.snd) :=
    (skipPass_sublist W _ none).mem hm
  exact (List.perm_insertionSort netLE _).mem_iff.mp h1

theorem collapse_valid {W : Nat} {nets : List Net} (hv : ∀ n ∈ nets, n.Valid W) :
    ∀ m ∈ collapse W nets, m.Valid W := by
  intro m hm
  obtain ⟨i1, _, _, _⟩ := mergeLoop_inv W nets.reverse []
    (fun n hn => hv n (List.mem_reverse.mp hn))
    (by intro p hp; cases hp) (by intro p hp; cases hp) List.nodup_nil
  obtain ⟨p, hp, hpm⟩ := List.mem_map.mp (collapse_mem_values hm)
  rw [← hpm]
  exact i1 p hp

theorem collapse_sorted (W : Nat) (nets : List Net) :
    List.Pairwise netLE (collapse W nets) :=
  List.Pairwise.sublist (skipPass_sublist W _ none) (pairwise_netLE_sort _)

theorem collapse_cover {W : Nat} {nets : List Net} (hv : ∀ n ∈ nets, n.Valid W) :
    coverList W (collapse W nets) = coverList W nets := by
  obtain ⟨_, _, _, i4⟩ := mergeLoop_inv W nets.reverse []
    (fun n hn => hv n (List.mem_reverse.mp hn))
    (by intro p hp; cases hp) (by intro p hp; cases hp) List.nodup_nil
  unfold collapse
  rw [skipPass_cover_none W _ (pairwise_netLE_sort _)]
  rw [coverList_perm (List.perm_insertionSort netLE _)]
  rw [i4]
  simp only [List.map_nil, List.append_nil]
  exact coverList_perm (List.reverse_perm nets)

theorem collapse_pairwise_disj {W : Nat} {nets : List Net}
    (hv : ∀ n ∈ nets, n.Valid W) :
    List.Pairwise (Disj W) (collapse W nets) := by
  obtain ⟨i1, _, _, _⟩ := mergeLoop_inv W nets.reverse []
    (fun n hn => hv n (List.mem_reverse.mp hn))
    (by intro p hp; cases hp) (by intro p hp; cases hp) List.nodup_nil
  apply skipPass_pairwise_disj
  · intro m hm
    obtain ⟨p, hp, hpm⟩ :=
      List.mem_map.mp ((List.perm_insertionSort netLE _).mem_iff.mp hm)
    rw [← hpm]
    exact i1 p hp
  · exact pairwise_netLE_sort _

theorem collapse_no_sibling {W : Nat} {nets : List Net}
    (hv : ∀ n ∈ nets, n.Valid W) :
    List.Pairwise (fun a b => ¬ Sibling W a b) (collapse W nets) := by
  obtain ⟨_, i2, i3, _⟩ := mergeLoop_inv W nets.reverse []
    (fun n hn => hv n (List.mem_reverse.mp hn))
    (by intro p hp; cases hp) (by intro p hp; cases hp) List.nodup_nil
  have hkeys : List.Pairwise (fun p q : Net × Net => p.1 ≠ q.1)
      (mergeLoop W nets.reverse []) := List.pairwise_map.mp i3
  have hsup : List.Pairwise (fun p q : Net × Net =>
      Net.supernet W p.2 ≠ Net.supernet W q.2) (mergeLoop W nets.reverse []) := by
    refine hkeys.imp_of_mem ?_
    intro p q hp hq hne
    rw [← i2 p hp, ← i2 q hq]
    exact hne
  have hvals : List.Pairwise (fun a b : Net => Net.supernet W a ≠ Net.supernet W b)
      ((mergeLoop W nets.reverse []).map Prod.snd) := List.pairwise_map.mpr hsup
  have hsorted : List.Pairwise (fun a b : Net => Net.supernet W a ≠ Net.supernet W b)
      (List.insertionSort netLE ((mergeLoop W nets.reverse []).map Prod.snd)) := by
    refine (List.Perm.pairwise_iff ?_ (List.perm_insertionSort netLE _)).mpr hvals
    intro a b h
    exact fun he => h he.symm
  have hout := List.Pairwise.sublist (skipPass_sublist W _ none) hsorted
  exact hout.imp fun h hs => h hs.2.2.2

/-! ### Unique canonical decomposition of an address set into blocks -/

theorem base_mem_cover (W : Nat) (n : Net) : n.base ∈ Net.cover W n :=
  ⟨le_refl _, Net.base_le_last W n⟩

theorem disj_symm {W : Nat} : Symmetric (Disj W) := by
  intro a b h
  rcases h with h | h
  · exact Or.inr h
  · exact Or.inl h

theorem disj_ne {W : Nat} {a b : Net} (h : Disj W a b) : a ≠ b := by
  intro he
  subst he
  have := Net.base_le_last W a
  rcases h with h | h <;> omega

theorem sibling_symm {W : Nat} : Symmetric (Sibling W) := by
  intro a b h
  obtain ⟨h1, h2, h3, h4⟩ := h
  exact ⟨h1.symm, by omega, h3.symm, h4.symm⟩

theorem not_sibling_symm {W : Nat} : Symmetric (fun a b => ¬ Sibling W a b) :=
  fun _ _ h hs => h (sibling_symm hs)

theorem valid_size_one_no_strict {W : Nat} {c d : Net} (hc : c.Valid W)
    (hd : d.Valid W) (hplen : W ≤ c.plen) (hsub : SubRange W d c) : d = c := by
  have hpc : c.plen = W := le_antisymm hc.1 hplen
  have hlc : Net.last W c = c.base := by
    unfold Net.last Net.size
    rw [hpc, Nat.sub_self]
    omega
  have h1 := Net.base_le_last W d
  have h2 := hsub.1
  have h3 := hsub.2
  have hb : d.base = c.base := by omega
  have hl : Net.last W d = d.base := by omega
  have hs1 := Net.size_pos W d
  have hsd : Net.size W d = 1 := by unfold Net.last at hl; omega
  have hpd : W - d.plen = 0 := by
    by_contra hne
    have : (2:Nat) ^ 1 ≤ 2 ^ (W - d.plen) := Nat.pow_le_pow_right (by norm_num) (by omega)
    unfold Net.size at hsd
    omega
  have : d.plen = W := by have := hd.1; omega
  cases d; cases c
  simp_all

theorem subRange_size_lt {W : Nat} {d c : Net} (hd : d.Valid W) (hc : c.Valid W)
    (hsub : SubRange W d c) (hne : d ≠ c) : Net.size W d < Net.size W c := by
  have hle := subRange_size_le hsub
  by_contra hlt
  have heq : Net.size W d = Net.size W c := by omega
  have hb : d.base = c.base := by
    have h1 := hsub.1
    have h2 := hsub.2
    unfold Net.last at h2
    have := Net.size_pos W d
    omega
  have hp := size_inj_plen hd.1 hc.1 heq
  exact hne (by cases d; cases c; simp_all)

theorem pow_le_of_lt_double {x y : Nat} (h : 2 ^ x < 2 * 2 ^ y) : 2 ^ x ≤ 2 ^ y := by
  have h2 : (2:Nat) ^ x < 2 ^ (y + 1) := by rw [pow_succ]; omega
  have hxy : x < y + 1 := (Nat.pow_lt_pow_iff_right (by norm_num)).mp h2
  exact Nat.pow_le_pow_right (by norm_num) (by omega)

theorem half_left_valid {W : Nat} {c : Net} (hc : c.Valid W) (hW : c.plen < W) :
    Net.Valid W ⟨c.base, c.plen + 1⟩ := by
  refine ⟨show c.plen + 1 ≤ W by omega, hc.2.1, ?_⟩
  have hdvd : (2:Nat) ^ (W - (c.plen + 1)) ∣ c.base :=
    (Nat.pow_dvd_pow 2 (by omega)).trans (Nat.dvd_of_mod_eq_zero hc.2.2)
  obtain ⟨t, ht⟩ := hdvd
  show c.base % 2 ^ (W - (c.plen + 1)) = 0
  rw [ht]
  exact Nat.mul_mod_right _ _

theorem half_facts {W : Nat} {c : Net} (hc : c.Valid W) (hW : c.plen < W) :
    Net.size W c = 2 * 2 ^ (W - (c.plen + 1)) ∧
    c.base % 2 ^ (W - (c.plen + 1)) = 0 := by
  constructor
  · exact two_pow_sub_eq rfl (by omega)
  · have hdvd : (2:Nat) ^ (W - (c.plen + 1)) ∣ c.base :=
      (Nat.pow_dvd_pow 2 (by omega)).trans (Nat.dvd_of_mod_eq_zero hc.2.2)
    obtain ⟨t, ht⟩ := hdvd
    rw [ht]
    exact Nat.mul_mod_right _ _

theorem half_right_valid {W : Nat} {c : Net} (hc : c.Valid W) (hW : c.plen < W) :
    Net.Valid W ⟨c.base + 2 ^ (W - (c.plen + 1)), c.plen + 1⟩ := by
  obtain ⟨hsz, hmod⟩ := half_facts hc hW
  have hlt := Net.valid_last_lt hc
  have hpos : 0 < (2:Nat) ^ (W - (c.plen + 1)) := Nat.pos_pow_of_pos _ (by norm_num)
  refine ⟨show c.plen + 1 ≤ W by omega, ?_, ?_⟩
  · show c.base + 2 ^ (W - (c.plen + 1)) < 2 ^ W
    unfold Net.last at hlt
    omega
  · show (c.base + 2 ^ (W - (c.plen + 1))) % 2 ^ (W - (c.plen + 1)) = 0
    rw [Nat.add_mod_right, hmod]

theorem strict_sub_in_half {W : Nat} {c d : Net} (hc : c.Valid W) (hd : d.Valid W)
    (hW : c.plen < W) (hsub : SubRange W d c) (hne : d ≠ c) :
    SubRange W d ⟨c.base, c.plen + 1⟩ ∨
    SubRange W d ⟨c.base + 2 ^ (W - (c.plen + 1)), c.plen + 1⟩ := by
  obtain ⟨hsz, hmod⟩ := half_facts hc hW
  have hpos : 0 < (2:Nat) ^ (W - (c.plen + 1)) := Nat.pos_pow_of_pos _ (by norm_num)
  have hc0v := half_left_valid hc hW
  have hsize0 : Net.size W (⟨c.base, c.plen + 1⟩ : Net) = 2 ^ (W - (c.plen + 1)) := rfl
  have hlast0 : Net.last W (⟨c.base, c.plen + 1⟩ : Net) =
      c.base + 2 ^ (W - (c.plen + 1)) - 1 := by
    unfold Net.last
    rw [hsize0]
  have hlastc : Net.last W c = c.base + 2 * 2 ^ (W - (c.plen + 1)) - 1 := by
    unfold Net.last
    rw [hsz]
  by_cases hint : d.base ≤ Net.last W (⟨c.base, c.plen + 1⟩ : Net)
  · left
    have hmem0 : d.base ∈ Net.cover W (⟨c.base, c.plen + 1⟩ : Net) := by
      refine ⟨?_, hint⟩
      exact hsub.1
    rcases range_compare hd hc0v (base_mem_cover W d) hmem0 with h | h
    · exact h
    · -- the left half is contained in `d`; sizes force them equal
      have hlt := subRange_size_lt hd hc hsub hne
      rw [hsz] at hlt
      have hle2 : Net.size W d ≤ 2 ^ (W - (c.plen + 1)) := pow_le_of_lt_double hlt
      have hge := subRange_size_le h
      rw [hsize0] at hge
      have heq : Net.size W d = 2 ^ (W - (c.plen + 1)) := by omega
      refine ⟨hsub.1, ?_⟩
      have hdb : d.base ≤ c.base := h.1
      have hdb2 : c.base ≤ d.base := hsub.1
      rw [hlast0]
      unfold Net.last
      omega
  · right
    have hd1 := hsub.1
    have hd2 := hsub.2
    have hlast1 : Net.last W (⟨c.base + 2 ^ (W - (c.plen + 1)), c.plen + 1⟩ : Net) =
        c.base + 2 * 2 ^ (W - (c.plen + 1)) - 1 := by
      unfold Net.last Net.size
      simp only
      omega
    refine ⟨?_, ?_⟩
    · show c.base + 2 ^ (W - (c.plen + 1)) ≤ d.base
      omega
    · rw [hlast1]
      omega

theorem no_strict_cover_of_min {W : Nat} {c : Net} {D : List Net}
    (hc : c.Valid W) (hv : ∀ d ∈ D, d.Valid W)
    (hstrict : ∀ d ∈ D, SubRange W d c ∧ d ≠ c)
    (hcov : Net.cover W c ⊆ coverList W D) (hW : W ≤ c.plen) : False := by
  obtain ⟨d, hd, had⟩ := hcov (base_mem_cover W c)
  exact (hstrict d hd).2
    (valid_size_one_no_strict hc (hv d hd) hW (hstrict d hd).1)

/-- Any partition of a block into finitely many pairwise-disjoint strictly
smaller blocks covering all of it must contain a pair of exact siblings. -/
theorem subdivision_has_sibling (W : Nat) :
    ∀ (k : Nat) (c : Net) (D : List Net), W - c.plen ≤ k → c.Valid W →
    (∀ d ∈ D, d.Valid W) → List.Pairwise (Disj W) D →
    (∀ d ∈ D, SubRange W d c ∧ d ≠ c) →
    (Net.cover W c ⊆ coverList W D) →
    ∃ x ∈ D, ∃ y ∈ D, Sibling W x y := by
  intro k
  induction k with
  | zero =>
    intro c D hk hc hv hdisj hstrict hcov
    exact absurd (no_strict_cover_of_min hc hv hstrict hcov (by omega)) not_false
  | succ k ih =>
    intro c D hk hc hv hdisj hstrict hcov
    by_cases hW : W ≤ c.plen
    · exact absurd (no_strict_cover_of_min hc hv hstrict hcov hW) not_false
    · have hWlt : c.plen < W := by omega
      obtain ⟨hsz, hmod⟩ := half_facts hc hWlt
      have hpos : 0 < (2:Nat) ^ (W - (c.plen + 1)) := Nat.pos_pow_of_pos _ (by norm_num)
      have hc0v := half_left_valid hc hWlt
      have hc1v := half_right_valid hc hWlt
      have hlast0 : Net.last W (⟨c.base, c.plen + 1⟩ : Net) =
          c.base + 2 ^ (W - (c.plen + 1)) - 1 := by
        unfold Net.last Net.size
        simp only
      have hlast1 : Net.last W
          (⟨c.base + 2 ^ (W - (c.plen + 1)), c.plen + 1⟩ : Net) =
          c.base + 2 * 2 ^ (W - (c.plen + 1)) - 1 := by
        unfold Net.last Net.size
        simp only
        omega
      have hlastc : Net.last W c = c.base + 2 * 2 ^ (W - (c.plen + 1)) - 1 := by
        unfold Net.last
        rw [hsz]
      have hsplit : ∀ d ∈ D, SubRange W d ⟨c.base, c.plen + 1⟩ ∨
          SubRange W d ⟨c.base + 2 ^ (W - (c.plen + 1)), c.plen + 1⟩ :=
        fun d hd =>
          strict_sub_in_half hc (hv d hd) hWlt (hstrict d hd).1 (hstrict d hd).2
      by_cases hm0 : (⟨c.base, c.plen + 1⟩ : Net) ∈ D
      · by_cases hm1 : (⟨c.base + 2 ^ (W - (c.plen + 1)), c.plen + 1⟩ : Net) ∈ D
        · -- both halves are members: they are exact siblings
          refine ⟨_, hm0, _, hm1, ?_⟩
          have hbc : c.base % 2 ^ (W - c.plen) = 0 := hc.2.2
          refine ⟨?_, Nat.succ_pos _, rfl, ?_⟩
          · intro h
            have := congrArg Net.base h
            simp only at this
            omega
          · rw [supernet_child_left hbc,
              supernet_child_right (show c.plen + 1 ≤ W by omega) hbc]
        · -- recurse into the right half
          have hsib := ih ⟨c.base + 2 ^ (W - (c.plen + 1)), c.plen + 1⟩
            (D.filter fun d => decide
              (SubRange W d ⟨c.base + 2 ^ (W - (c.plen + 1)), c.plen + 1⟩))
            (show W - (c.plen + 1) ≤ k by omega) hc1v
            (fun d hd => hv d (List.mem_filter.mp hd).1)
            (List.Pairwise.sublist (List.filter_sublist _) hdisj)
            (by
              intro d hd
              have hdm := List.mem_filter.mp hd
              refine ⟨by simpa using hdm.2, ?_⟩
              intro hdc
              exact hm1 (hdc ▸ hdm.1))
            (by
              intro a ha
              have hac : a ∈ Net.cover W c := by
                refine ⟨?_, ?_⟩
                · have := ha.1
                  simp only at this
                  omega
                · have := ha.2
                  rw [hlast1] at this
                  omega
              obtain ⟨d, hd, had⟩ := hcov hac
              rcases hsplit d hd with hs0 | hs1
              · exfalso
                have h1 := (subRange_cover hs0 had).2
                have h2 := ha.1
                rw [hlast0] at h1
                simp only at h2
                omega
              · exact ⟨d, List.mem_filter.mpr ⟨hd, by simp [hs1]⟩, had⟩)
          obtain ⟨x, hx, y, hy, hsib'⟩ := hsib
          exact ⟨x, (List.mem_filter.mp hx).1, y, (List.mem_filter.mp hy).1, hsib'⟩
      · -- recurse into the left half
        have hsib := ih ⟨c.base, c.plen + 1⟩
          (D.filter fun d => decide (SubRange W d ⟨c.base, c.plen + 1⟩))
          (show W - (c.plen + 1) ≤ k by omega) hc0v
          (fun d hd => hv d (List.mem_filter.mp hd).1)
          (List.Pairwise.sublist (List.filter_sublist _) hdisj)
          (by
            intro d hd
            have hdm := List.mem_filter.mp hd
            refine ⟨by simpa using hdm.2, ?_⟩
            intro hdc
            exact hm0 (hdc ▸ hdm.1))
          (by
            intro a ha
            have hac : a ∈ Net.cover W c := by
              refine ⟨?_, ?_⟩
              · have := ha.1
                simp only at this
                omega
              · have := ha.2
                rw [hlast0] at this
                omega
            obtain ⟨d, hd, had⟩ := hcov hac
            rcases hsplit d hd with hs0 | hs1
            · exact ⟨d, List.mem_filter.mpr ⟨hd, by simp [hs0]⟩, had⟩
            · exfalso
              have h1 := (subRange_cover hs1 had).1
              have h2 := ha.2
              rw [hlast0] at h2
              simp only at h1
              omega)
        obtain ⟨x, hx, y, hy, hsib'⟩ := hsib
        exact ⟨x, (List.mem_filter.mp hx).1, y, (List.mem_filter.mp hy).1, hsib'⟩

theorem canon_mem_of_mem {W : Nat} {l1 l2 : List Net}
    (hv1 : ∀ n ∈ l1, n.Valid W) (hv2 : ∀ n ∈ l2, n.Valid W)
    (hd1 : List.Pairwise (Disj W) l1) (hd2 : List.Pairwise (Disj W) l2)
    (hs1 : List.Pairwise (fun a b => ¬ Sibling W a b) l1)
    (hs2 : List.Pairwise (fun a b => ¬ Sibling W a b) l2)
    (hc : coverList W l1 = coverList W l2) :
    ∀ b ∈ l1, b ∈ l2 := by
  intro b hb
  by_cases hb2 : b ∈ l2
  · exact hb2
  exfalso
  have hvb := hv1 b hb
  have hmem2 : b.base ∈ coverList W l2 :=
    hc ▸ (cover_subset_coverList hb (base_mem_cover W b))
  obtain ⟨c, hcmem, hbc⟩ := hmem2
  have hvc := hv2 c hcmem
  have hbne : b ≠ c := fun h => hb2 (h ▸ hcmem)
  rcases range_compare hvb hvc (base_mem_cover W b) hbc with hsub | hsub
  · -- `b` is strictly inside `c ∈ l2`; the `l1` blocks under `c` would
    -- then partition `c` into strict sub-blocks, forcing siblings in `l1`
    have hstrict : ∀ d ∈ (l1.filter fun d => decide (SubRange W d c)),
        SubRange W d c ∧ d ≠ c := by
      intro d hd
      have hdm := List.mem_filter.mp hd
      refine ⟨by simpa using hdm.2, ?_⟩
      intro hdc
      subst hdc
      have hdisj := (hd1.forall disj_symm) hb hdm.1 hbne
      exact not_disj_of_common (base_mem_cover W b) (subRange_cover hsub (base_mem_cover W b)) hdisj
    have hcovE : Net.cover W c ⊆
        coverList W (l1.filter fun d => decide (SubRange W d c)) := by
      intro a ha
      have : a ∈ coverList W l1 := by
        rw [hc]
        exact cover_subset_coverList hcmem ha
      obtain ⟨d, hdm, had⟩ := this
      rcases range_compare (hv1 d hdm) hvc had ha with h | h
      · exact ⟨d, List.mem_filter.mpr ⟨hdm, by simp [h]⟩, had⟩
      · exfalso
        have hbd : b = d := by
          by_contra hne2
          have hdisj := (hd1.forall disj_symm) hb hdm hne2
          exact not_disj_of_common (base_mem_cover W b)
            (subRange_cover h (subRange_cover hsub (base_mem_cover W b))) hdisj
        exact hbne (subRange_antisymm hvb hvc hsub (hbd ▸ h))
    obtain ⟨x, hx, y, hy, hsib⟩ := subdivision_has_sibling W (W - c.plen) c _
      (le_refl _) hvc (fun d hd => hv1 d (List.mem_filter.mp hd).1)
      (List.Pairwise.sublist (List.filter_sublist _) hd1) hstrict hcovE
    exact (hs1.forall not_sibling_symm) (List.mem_filter.mp hx).1
      (List.mem_filter.mp hy).1 hsib.1 hsib
  · -- `c ∈ l2` is strictly inside `b`; the `l2` blocks under `b` would
    -- then partition `b` into strict sub-blocks, forcing siblings in `l2`
    have hstrict : ∀ d ∈ (l2.filter fun d => decide (SubRange W d b)),
        SubRange W d b ∧ d ≠ b := by
      intro d hd
      have hdm := List.mem_filter.mp hd
      refine ⟨by simpa using hdm.2, ?_⟩
      intro hdb
      exact hb2 (hdb ▸ hdm.1)
    have hcovE : Net.cover W b ⊆
        coverList W (l2.filter fun d => decide (SubRange W d b)) := by
      intro a ha
      have : a ∈ coverList W l2 := by
        rw [← hc]
        exact cover_subset_coverList hb ha
      obtain ⟨d, hdm, had⟩ := this
      rcases range_compare (hv2 d hdm) hvb had ha with h | h
      · exact ⟨d, List.mem_filter.mpr ⟨hdm, by simp [h]⟩, had⟩
      · exfalso
        have hcd : c = d := by
          by_contra hne2
          have hdisj := (hd2.forall disj_symm) hcmem hdm hne2
          exact not_disj_of_common (base_mem_cover W c)
            (subRange_cover h (subRange_cover hsub (base_mem_cover W c))) hdisj
        exact hbne (subRange_antisymm hvb hvc (hcd ▸ h) hsub)
    obtain ⟨x, hx, y, hy, hsib⟩ := subdivision_has_sibling W (W - b.plen) b _
      (le_refl _) hvb (fun d hd => hv2 d (List.mem_filter.mp hd).1)
      (List.Pairwise.sublist (List.filter_sublist _) hd2) hstrict hcovE
    exact (hs2.forall not_sibling_symm) (List.mem_filter.mp hx).1
      (List.mem_filter.mp hy).1 hsib.1 hsib

/-- A sorted, pairwise-disjoint, sibling-free list of well-formed blocks
is uniquely determined by the set of addresses it covers. -/
theorem canon_unique {W : Nat} {l1 l2 : List Net}
    (hv1 : ∀ n ∈ l1, n.Valid W) (hv2 : ∀ n ∈ l2, n.Valid W)
    (hd1 : List.Pairwise (Disj W) l1) (hd2 : List.Pairwise (Disj W) l2)
    (hs1 : List.Pairwise (fun a b => ¬ Sibling W a b) l1)
    (hs2 : List.Pairwise (fun a b => ¬ Sibling W a b) l2)
    (ho1 : List.Pairwise netLE l1) (ho2 : List.Pairwise netLE l2)
    (hc : coverList W l1 = coverList W l2) : l1 = l2 := by
  have h12 := canon_mem_of_mem hv1 hv2 hd1 hd2 hs1 hs2 hc
  have h21 := canon_mem_of_mem hv2 hv1 hd2 hd1 hs2 hs1 hc.symm
  have hnd1 : l1.Nodup := hd1.imp disj_ne
  have hnd2 : l2.Nodup := hd2.imp disj_ne
  have hperm := (List.perm_ext_iff_of_nodup hnd1 hnd2).mpr
    (fun a => ⟨h12 a, h21 a⟩)
  exact List.eq_of_perm_of_sorted hperm ho1 ho2

/-- `collapse` depends only on the covered address set. -/
theorem collapse_eq_of_cover_eq {W : Nat} {l1 l2 : List Net}
    (hv1 : ∀ n ∈ l1, n.Valid W) (hv2 : ∀ n ∈ l2, n.Valid W)
    (hc : coverList W l1 = coverList W l2) :
    collapse W l1 = collapse W l2 := by
  apply canon_unique (collapse_valid hv1) (collapse_valid hv2)
    (collapse_pairwise_disj hv1) (collapse_pairwise_disj hv2)
    (collapse_no_sibling hv1) (collapse_no_sibling hv2)
    (collapse_sorted W l1) (collapse_sorted W l2)
  rw [collapse_cover hv1, collapse_cover hv2, hc]

theorem collapse_idem {W : Nat} {nets : List Net}
    (hv : ∀ n ∈ nets, n.Valid W) :
    collapse W (collapse W nets) = collapse W nets := by
  apply canon_unique (collapse_valid (collapse_valid hv)) (collapse_valid hv)
    (collapse_pairwise_disj (collapse_valid hv)) (collapse_pairwise_disj hv)
    (collapse_no_sibling (collapse_valid hv)) (collapse_no_sibling hv)
    (collapse_sorted W _) (collapse_sorted W nets)
  rw [collapse_cover (collapse_valid hv), collapse_cover hv]

/-! ### The grouping dictionary -/

theorem addToGroup_keys_sup {k0 : String × String × String} {n : Net}
    {G : List ((String × String × String) × List Net)} :
    ∀ p ∈ G, ∃ q ∈ addToGroup k0 n G, q.1 = p.1 := by
  induction G with
  | nil => intro p hp; cases hp
  | cons hd tl ih =>
    intro p hp
    cases hd with
    | mk k1 ns1 =>
      rw [addToGroup]
      by_cases hk : k1 = k0
      · rw [if_pos hk]
        rcases List.mem_cons.mp hp with rfl | hp'
        · exact ⟨(k1, ns1 ++ [n]), by simp, rfl⟩
        · exact ⟨p, by simp [hp'], rfl⟩
      · rw [if_neg hk]
        rcases List.mem_cons.mp hp with rfl | hp'
        · exact ⟨(k1, ns1), by simp, rfl⟩
        · obtain ⟨q, hq, hqk⟩ := ih p hp'
          exact ⟨q, by simp [hq], hqk⟩

theorem addToGroup_self_mem {k0 : String × String × String} {n : Net}
    {G : List ((String × String × String) × List Net)} :
    ∃ ns, (k0, ns) ∈ addToGroup k0 n G := by
  induction G with
  | nil => exact ⟨[n], by rw [addToGroup]; simp⟩
  | cons hd tl ih =>
    cases hd with
    | mk k1 ns1 =>
      rw [addToGroup]
      by_cases hk : k1 = k0
      · exact ⟨ns1 ++ [n], by rw [if_pos hk, hk]; simp⟩
      · obtain ⟨ns, hns⟩ := ih
        exact ⟨ns, by rw [if_neg hk]; simp [hns]⟩

theorem addToGroup_keys_sub {k0 : String × String × String} {n : Net}
    {G : List ((String × String × String) × List Net)} :
    ∀ p ∈ addToGroup k0 n G, p.1 = k0 ∨ ∃ q ∈ G, q.1 = p.1 := by
  induction G with
  | nil =>
    intro p hp
    rw [addToGroup] at hp
    rcases List.mem_cons.mp hp with rfl | hp'
    · exact Or.inl rfl
    · cases hp'
  | cons hd tl ih =>
    intro p hp
    cases hd with
    | mk k1 ns1 =>
      rw [addToGroup] at hp
      by_cases hk : k1 = k0
      · rw [if_pos hk] at hp
        rcases List.mem_cons.mp hp with rfl | hp'
        · exact Or.inl hk
        · exact Or.inr ⟨p, by simp [hp'], rfl⟩
      · rw [if_neg hk] at hp
        rcases List.mem_cons.mp hp with rfl | hp'
        · exact Or.inr ⟨(k1, ns1), by simp, rfl⟩
        · rcases ih p hp' with h | ⟨q, hq, hqk⟩
          · exact Or.inl h
          · exact Or.inr ⟨q, by simp [hq], hqk⟩

theorem addToGroup_nodup {k0 : String × String × String} {n : Net}
    {G : List ((String × String × String) × List Net)}
    (h : (G.map Prod.fst).Nodup) :
    ((addToGroup k0 n G).map Prod.fst).Nodup := by
  induction G with
  | nil =>
    rw [addToGroup]
    simp
  | cons hd tl ih =>
    cases hd with
    | mk k1 ns1 =>
      rw [addToGroup]
      by_cases hk : k1 = k0
      · rw [if_pos hk]
        simpa using h
      · rw [if_neg hk]
        simp only [List.map_cons, List.nodup_cons] at h ⊢
        refine ⟨?_, ih h.2⟩
        intro hmem
        obtain ⟨q, hq, hqk⟩ := List.mem_map.mp hmem
        rcases addToGroup_keys_sub q hq with h1 | ⟨r, hr, hrk⟩
        · exact hk (hqk ▸ h1)
        · exact h.1 (List.mem_map.mpr ⟨r, hr, by rw [hrk, hqk]⟩)

theorem addToGroup_mem_char {k0 : String × String × String} {n : Net}
    {G : List ((String × String × String) × List Net)}
    (h : (G.map Prod.fst).Nodup) {k : String × String × String} {ns : List Net}
    (hmem : (k, ns) ∈ addToGroup k0 n G) :
    (k ≠ k0 ∧ (k, ns) ∈ G) ∨
    (k = k0 ∧ ((∃ ns0, (k0, ns0) ∈ G ∧ ns = ns0 ++ [n]) ∨
               ((∀ p ∈ G, p.1 ≠ k0) ∧ ns = [n]))) := by
  induction G with
  | nil =>
    rw [addToGroup] at hmem
    rcases List.mem_cons.mp hmem with heq | h'
    · cases heq
      exact Or.inr ⟨rfl, Or.inr ⟨fun p hp => absurd hp (List.not_mem_nil p), rfl⟩⟩
    · cases h'
  | cons hd tl ih =>
    cases hd with
    | mk k1 ns1 =>
      rw [addToGroup] at hmem
      simp only [List.map_cons, List.nodup_cons] at h
      by_cases hk : k1 = k0
      · rw [if_pos hk] at hmem
        rcases List.mem_cons.mp hmem with heq | h'
        · cases heq
          exact Or.inr ⟨hk, Or.inl ⟨ns1, by rw [hk]; simp, rfl⟩⟩
        · left
          refine ⟨?_, by simp [h']⟩
          intro hkk
          exact h.1 (List.mem_map.mpr ⟨(k, ns), h', hkk.trans hk.symm⟩)
      · rw [if_neg hk] at hmem
        rcases List.mem_cons.mp hmem with heq | h'
        · cases heq
          exact Or.inl ⟨fun hkk => hk hkk, by simp⟩
        · rcases ih h.2 h' with ⟨hne, hm⟩ | ⟨hkeq, hin⟩
          · exact Or.inl ⟨hne, by simp [hm]⟩
          · refine Or.inr ⟨hkeq, ?_⟩
            rcases hin with ⟨ns0, hm0, hns⟩ | ⟨hall, hns⟩
            · exact Or.inl ⟨ns0, by simp [hm0], hns⟩
            · refine Or.inr ⟨?_, hns⟩
              intro p hp
              rcases List.mem_cons.mp hp with rfl | hp'
              · exact hk
              · exact hall p hp'

theorem groupAux_mem_char :
    ∀ (es : List Entry) (acc : List ((String × String × String) × List Net)),
    (acc.map Prod.fst).Nodup →
    ∀ {k : String × String × String} {ns : List Net}, (k, ns) ∈ groupAux acc es →
    (∃ ns0, (k, ns0) ∈ acc ∧
        ns = ns0 ++ (es.filter fun e' => decide (e'.mkey = k)).map Entry.net) ∨
    ((∀ p ∈ acc, p.1 ≠ k) ∧
        ns = (es.filter fun e' => decide (e'.mkey = k)).map Entry.net) := by
  intro es
  induction es with
  | nil =>
    intro acc hnd k ns hmem
    rw [groupAux] at hmem
    exact Or.inl ⟨ns, hmem, by simp⟩
  | cons e rest ih =>
    intro acc hnd k ns hmem
    rw [groupAux] at hmem
    rcases ih _ (addToGroup_nodup hnd) hmem with ⟨ns0', hmem', hns⟩ | ⟨hall', hns⟩
    · rcases addToGroup_mem_char hnd hmem' with ⟨hne, hm⟩ | ⟨hkeq, hin⟩
      · refine Or.inl ⟨ns0', hm, ?_⟩
        rw [hns]
        have : decide (e.mkey = k) = false := by
          simp only [decide_eq_false_iff_not]
          intro h
          exact hne h.symm
        rw [List.filter_cons, this]
        simp
      · subst hkeq
        have hdk : decide (e.mkey = e.mkey) = true := by simp
        rcases hin with ⟨ns0, hm0, hns0'⟩ | ⟨hall, hns0'⟩
        · refine Or.inl ⟨ns0, hm0, ?_⟩
          rw [hns, hns0', List.filter_cons, hdk]
          simp
        · refine Or.inr ⟨hall, ?_⟩
          rw [hns, hns0', List.filter_cons, hdk]
          simp
    · have hke : e.mkey ≠ k := by
        obtain ⟨ns', hns'⟩ :=
          @addToGroup_self_mem e.mkey e.net acc
        exact fun h => hall' (e.mkey, ns') hns' h
      refine Or.inr ⟨?_, ?_⟩
      · intro p hp
        obtain ⟨q, hq, hqk⟩ := addToGroup_keys_sup p hp
        exact hqk ▸ hall' q hq
      · rw [hns]
        have : decide (e.mkey = k) = false := by simpa using hke
        rw [List.filter_cons, this]
        simp

theorem groupEntries_char {es : List Entry} {k : String × String × String}
    {ns : List Net} (h : (k, ns) ∈ groupEntries es) :
    ns = (es.filter fun e' => decide (e'.mkey = k)).map Entry.net := by
  rcases groupAux_mem_char es [] List.nodup_nil h with ⟨ns0, hm, _⟩ | ⟨_, hns⟩
  · cases hm
  · exact hns

theorem groupAux_key_mem :
    ∀ (es : List Entry) (acc : List ((String × String × String) × List Net))
    (k : String × String × String),
    ((∃ ns, (k, ns) ∈ acc) ∨ (∃ e ∈ es, e.mkey = k)) →
    ∃ ns, (k, ns) ∈ groupAux acc es := by
  intro es
  induction es with
  | nil =>
    intro acc k h
    rw [groupAux]
    rcases h with ⟨ns, hns⟩ | ⟨e, he, _⟩
    · exact ⟨ns, hns⟩
    · cases he
  | cons e rest ih =>
    intro acc k h
    rw [groupAux]
    apply ih
    rcases h with ⟨ns, hns⟩ | ⟨e', he', hk⟩
    · left
      obtain ⟨q, hq, hqk⟩ := @addToGroup_keys_sup e.mkey e.net acc (k, ns) hns
      refine ⟨q.2, ?_⟩
      have : q = (k, q.2) := by
        cases q
        simp_all
      rw [← this]
      exact hq
    · rcases List.mem_cons.mp he' with rfl | he''
      · left
        obtain ⟨ns', hns'⟩ :=
          @addToGroup_self_mem e'.mkey e'.net acc
        exact ⟨ns', hk ▸ hns'⟩
      · exact Or.inr ⟨e', he'', hk⟩

theorem groupEntries_key_mem {es : List Entry} {e : Entry} (he : e ∈ es) :
    ∃ ns, (e.mkey, ns) ∈ groupEntries es :=
  groupAux_key_mem es [] e.mkey (Or.inr ⟨e, he, rfl⟩)

theorem addToGroup_sum_length {k0 : String × String × String} {n : Net}
    {G : List ((String × String × String) × List Net)} :
    ((addToGroup k0 n G).map fun p => p.2.length).sum =
      ((G.map fun p => p.2.length).sum) + 1 := by
  induction G with
  | nil => rw [addToGroup]; simp
  | cons hd tl ih =>
    cases hd with
    | mk k1 ns1 =>
      rw [addToGroup]
      by_cases hk : k1 = k0
      · rw [if_pos hk]
        simp only [List.map_cons, List.sum_cons, List.length_append,
          List.length_cons, List.length_nil]
        omega
      · rw [if_neg hk]
        simp only [List.map_cons, List.sum_cons]
        omega

theorem groupAux_sum_length :
    ∀ (es : List Entry) (acc : List ((String × String × String) × List Net)),
    ((groupAux acc es).map fun p => p.2.length).sum =
      ((acc.map fun p => p.2.length).sum) + es.length := by
  intro es
  induction es with
  | nil =>
    intro acc
    rw [groupAux]
    simp
  | cons e rest ih =>
    intro acc
    rw [groupAux, ih, addToGroup_sum_length]
    simp only [List.length_cons]
    omega

theorem groupEntries_sum_length (es : List Entry) :
    ((groupEntries es).map fun p => p.2.length).sum = es.length := by
  unfold groupEntries
  rw [groupAux_sum_length]
  simp

/-! ### The cross-group reconciliation scan -/

theorem crossMerge_nil (W : Nat) : crossMerge W [] = [] := by
  simp [crossMerge]

theorem crossMerge_cons (W : Nat) (e : Tagged) (rest : List Tagged) :
    crossMerge W (e :: rest) =
      if (rest.filter fun f => mergeableB W e.net f.net).isEmpty
      then e :: crossMerge W rest
      else mergeGroup W e (rest.filter fun f => mergeableB W e.net f.net) ++
        crossMerge W (rest.filter fun f => !mergeableB W e.net f.net) := by
  conv_lhs => rw [crossMerge.eq_def]

theorem mergeGroup_net_eq (W : Nat) (e : Tagged) (matched : List Tagged) :
    (mergeGroup W e matched).map Tagged.net =
      collapse W (e.net :: matched.map Tagged.net) := by
  unfold mergeGroup
  rw [List.map_map]
  have hco : ∀ (b : Bool),
      (Tagged.net ∘ fun n =>
        if b then (⟨n, e.region, e.service, e.nbg⟩ : Tagged)
        else ⟨n, "other", "OTHER", "other"⟩) = id := by
    intro b
    funext n
    cases b <;> rfl
  rw [hco, List.map_id]

theorem mergeGroup_mkey_ok {W : Nat} {e : Tagged} {matched : List Tagged}
    (hok : (matched.all fun f =>
      f.region = e.region && f.service = e.service && f.nbg = e.nbg) = true) :
    ∀ t ∈ mergeGroup W e matched, t.mkey = e.mkey := by
  intro t ht
  unfold mergeGroup at ht
  rw [hok] at ht
  obtain ⟨n, _, hn⟩ := List.mem_map.mp ht
  rw [← hn]
  rfl

theorem mergeGroup_mkey_not_ok {W : Nat} {e : Tagged} {matched : List Tagged}
    (hok : (matched.all fun f =>
      f.region = e.region && f.service = e.service && f.nbg = e.nbg) = false) :
    ∀ t ∈ mergeGroup W e matched, t.mkey = sentinelKey := by
  intro t ht
  unfold mergeGroup at ht
  rw [hok] at ht
  obtain ⟨n, _, hn⟩ := List.mem_map.mp ht
  rw [← hn]
  rfl

theorem mkey_eq_of_all {e f : Tagged}
    (hall : (f.region = e.region && f.service = e.service && f.nbg = e.nbg) = true) :
    f.mkey = e.mkey := by
  simp only [Bool.and_eq_true, decide_eq_true_eq] at hall
  unfold Tagged.mkey
  rw [hall.1.1, hall.1.2, hall.2]

theorem mergeLoop_length (W : Nat) (tm : List Net) (sn : List (Net × Net)) :
    (mergeLoop W tm sn).length ≤ tm.length + sn.length := by
  induction tm, sn using mergeLoop.induct W with
  | case1 sn => rw [mergeLoop_nil]; omega
  | case2 net rest sn hlook ih =>
    rw [mergeLoop_cons_none W net rest sn hlook]
    simp only [List.length_cons] at *
    omega
  | case3 rest sn existing hlook ih =>
    rw [mergeLoop_cons_dup W existing rest sn hlook]
    simp only [List.length_cons] at *
    omega
  | case4 net rest sn existing hlook hne ih =>
    rw [mergeLoop_cons_merge W net existing rest sn hlook hne]
    obtain ⟨l1, l2, hdec, herase⟩ := lookupKey_some_decomp hlook
    have h1 : (eraseKey (Net.supernet W net) sn).length + 1 = sn.length := by
      rw [herase, hdec]
      simp only [List.length_append, List.length_cons]
      omega
    simp only [List.length_cons] at *
    omega

theorem collapse_length (W : Nat) (nets : List Net) :
    (collapse W nets).length ≤ nets.length := by
  have h1 := (skipPass_sublist W
    (List.insertionSort netLE ((mergeLoop W nets.reverse []).map Prod.snd)) none).length_le
  have h2 := (List.perm_insertionSort netLE
    ((mergeLoop W nets.reverse []).map Prod.snd)).length_eq
  have h3 := mergeLoop_length W nets.reverse []
  simp only [List.length_map, List.length_reverse, List.length_nil] at *
  unfold collapse
  omega

theorem mergeGroup_length (W : Nat) (e : Tagged) (matched : List Tagged) :
    (mergeGroup W e matched).length ≤ matched.length + 1 := by
  have h1 : (mergeGroup W e matched).length =
      (collapse W (e.net :: matched.map Tagged.net)).length := by
    rw [← mergeGroup_net_eq W e matched, List.length_map]
  have h2 := collapse_length W (e.net :: matched.map Tagged.net)
  simp only [List.length_cons, List.length_map] at *
  omega

theorem length_filter_partition {α : Type} (p : α → Bool) (l : List α) :
    (l.filter p).length + (l.filter fun a => !p a).length = l.length := by
  induction l with
  | nil => simp
  | cons x rest ih =>
    simp only [List.filter_cons]
    by_cases h : p x
    · simp [h]
      omega
    · simp [h]
      omega

theorem crossMerge_length (W : Nat) (l : List Tagged) :
    (crossMerge W l).length ≤ l.length := by
  induction l using crossMerge.induct W with
  | case1 => rw [crossMerge_nil]
  | case2 e rest matched hempty ih =>
    rw [crossMerge_cons,
      if_pos (show (rest.filter fun f => mergeableB W e.net f.net).isEmpty = true
        from hempty)]
    simp only [List.length_cons]
    omega
  | case3 e rest matched hempty ih =>
    rw [crossMerge_cons,
      if_neg (show ¬ (rest.filter fun f => mergeableB W e.net f.net).isEmpty = true
        from hempty)]
    have h1 := mergeGroup_length W e (rest.filter fun f => mergeableB W e.net f.net)
    have h2 := length_filter_partition (fun f => mergeableB W e.net f.net) rest
    simp only [List.length_append, List.length_cons]
    omega

theorem coverList_map_filter_partition (W : Nat) (p : Tagged → Bool)
    (l : List Tagged) :
    coverList W ((l.filter p).map Tagged.net) ∪
      coverList W ((l.filter fun t => !p t).map Tagged.net) =
    coverList W (l.map Tagged.net) := by
  induction l with
  | nil => simp [coverList_nil]
  | cons t rest ih =>
    simp only [List.filter_cons, List.map_cons]
    by_cases h : p t
    · rw [if_pos h, if_neg (by simp [h])]
      simp only [List.map_cons]
      rw [coverList_cons, coverList_cons, Set.union_assoc, ih]
    · rw [if_neg h, if_pos (by simp [h])]
      simp only [List.map_cons]
      rw [coverList_cons, coverList_cons, Set.union_left_comm, ih]

theorem crossMerge_cover (W : Nat) (l : List Tagged)
    (hv : ∀ t ∈ l, (t.net).Valid W) :
    coverList W ((crossMerge W l).map Tagged.net) =
      coverList W (l.map Tagged.net) := by
  induction l using crossMerge.induct W with
  | case1 => rw [crossMerge_nil]
  | case2 e rest matched hempty ih =>
    rw [crossMerge_cons,
      if_pos (show (rest.filter fun f => mergeableB W e.net f.net).isEmpty = true
        from hempty)]
    simp only [List.map_cons]
    rw [coverList_cons, coverList_cons, ih (fun u hu => hv u (by simp [hu]))]
  | case3 e rest matched hempty ih =>
    have hvset : ∀ n ∈ e.net ::
        (rest.filter fun f => mergeableB W e.net f.net).map Tagged.net,
        n.Valid W := by
      intro n hn
      rcases List.mem_cons.mp hn with rfl | hn'
      · exact hv e (by simp)
      · obtain ⟨f, hf, hfn⟩ := List.mem_map.mp hn'
        rw [← hfn]
        exact hv f (by simp [(List.mem_filter.mp hf).1])
    rw [crossMerge_cons,
      if_neg (show ¬ (rest.filter fun f => mergeableB W e.net f.net).isEmpty = true
        from hempty)]
    rw [List.map_append, coverList_append, mergeGroup_net_eq,
      collapse_cover hvset,
      ih (fun u hu => hv u (by simp [(List.mem_filter.mp hu).1]))]
    rw [coverList_cons, Set.union_assoc, coverList_map_filter_partition]
    simp only [List.map_cons]
    rw [coverList_cons]

theorem mergeableB_eq_false_of_disj {W : Nat} {a b : Net} (h : Disj W a b) :
    mergeableB W a b = false := by
  have ha := Net.base_le_last W a
  have hb := Net.base_le_last W b
  rw [Bool.eq_false_iff]
  intro htrue
  simp only [mergeableB, Net.overlapsB, Net.containsAddr, Net.supernetOf,
    Bool.or_eq_true, Bool.and_eq_true, decide_eq_true_eq] at htrue
  rcases h with h | h <;> omega

theorem crossMerge_eq_self {W : Nat} {l : List Tagged}
    (h : List.Pairwise (fun a b : Tagged => mergeableB W a.net b.net = false) l) :
    crossMerge W l = l := by
  induction l with
  | nil => exact crossMerge_nil W
  | cons e rest ih =>
    rw [crossMerge_cons]
    have hfil : (rest.filter fun f => mergeableB W e.net f.net) = [] := by
      rw [List.filter_eq_nil_iff]
      intro t ht
      simp [(List.pairwise_cons.mp h).1 t ht]
    rw [hfil, if_pos (by simp), ih h.of_cons]

theorem crossMerge_key_cover (W : Nat) (l : List Tagged)
    (hv : ∀ t ∈ l, (t.net).Valid W) :
    ∀ t ∈ crossMerge W l, t.mkey ≠ sentinelKey →
      ∀ a ∈ Net.cover W t.net,
        ∃ u ∈ l, u.mkey = t.mkey ∧ a ∈ Net.cover W u.net := by
  induction l using crossMerge.induct W with
  | case1 =>
    intro t ht
    rw [crossMerge_nil] at ht
    cases ht
  | case2 e rest matched hempty ih =>
    intro t ht hks a ha
    rw [crossMerge_cons,
      if_pos (show (rest.filter fun f => mergeableB W e.net f.net).isEmpty = true
        from hempty)] at ht
    rcases List.mem_cons.mp ht with rfl | ht'
    · exact ⟨t, by simp, rfl, ha⟩
    · obtain ⟨u, hu, hk, hau⟩ :=
        ih (fun u hu => hv u (by simp [hu])) t ht' hks a ha
      exact ⟨u, by simp [hu], hk, hau⟩
  | case3 e rest matched hempty ih =>
    intro t ht hks a ha
    rw [crossMerge_cons,
      if_neg (show ¬ (rest.filter fun f => mergeableB W e.net f.net).isEmpty = true
        from hempty)] at ht
    rcases List.mem_append.mp ht with htm | htc
    · cases hok : ((rest.filter fun f => mergeableB W e.net f.net).all fun f =>
          f.region = e.region && f.service = e.service && f.nbg = e.nbg) with
      | false => exact absurd (mergeGroup_mkey_not_ok hok t htm) hks
      | true =>
        have hkey := mergeGroup_mkey_ok hok t htm
        have htn : t.net ∈ (mergeGroup W e
            (rest.filter fun f => mergeableB W e.net f.net)).map Tagged.net :=
          List.mem_map_of_mem Tagged.net htm
        rw [mergeGroup_net_eq] at htn
        have hvset : ∀ n ∈ e.net ::
            (rest.filter fun f => mergeableB W e.net f.net).map Tagged.net,
            n.Valid W := by
          intro n hn
          rcases List.mem_cons.mp hn with rfl | hn'
          · exact hv e (by simp)
          · obtain ⟨f, hf, hfn⟩ := List.mem_map.mp hn'
            rw [← hfn]
            exact hv f (by simp [(List.mem_filter.mp hf).1])
        have hsub : Net.cover W t.net ⊆ coverList W (e.net ::
            (rest.filter fun f => mergeableB W e.net f.net).map Tagged.net) := by
          intro a' ha'
          rw [← collapse_cover hvset]
          exact cover_subset_coverList htn ha'
        obtain ⟨n, hn, han⟩ := hsub ha
        rcases List.mem_cons.mp hn with hne | hn'
        · exact ⟨e, by simp, hkey.symm ▸ rfl, hne ▸ han⟩
        · obtain ⟨f, hf, hfn⟩ := List.mem_map.mp hn'
          have hfk : f.mkey = e.mkey :=
            mkey_eq_of_all (List.all_eq_true.mp hok f hf)
          exact ⟨f, by simp [(List.mem_filter.mp hf).1], by rw [hfk, hkey],
            hfn ▸ han⟩
    · obtain ⟨u, hu, hk, hau⟩ :=
        ih (fun u hu => hv u (by simp [(List.mem_filter.mp hu).1])) t htc hks a ha
      exact ⟨u, by simp [(List.mem_filter.mp hu).1], hk, hau⟩

theorem mergeGroup_sentinel {W : Nat} {e : Tagged} {matched : List Tagged}
    {f g : Tagged} (hf : f ∈ e :: matched) (hg : g ∈ e :: matched)
    (hne : f.mkey ≠ g.mkey) :
    ∀ t ∈ mergeGroup W e matched, t.mkey = sentinelKey := by
  cases hok : (matched.all fun f =>
      f.region = e.region && f.service = e.service && f.nbg = e.nbg) with
  | false => exact mergeGroup_mkey_not_ok hok
  | true =>
    exfalso
    have hmem : ∀ u ∈ e :: matched, u.mkey = e.mkey := by
      intro u hu
      rcases List.mem_cons.mp hu with rfl | hu'
      · rfl
      · exact mkey_eq_of_all (List.all_eq_true.mp hok u hu')
    exact hne ((hmem f hf).trans (hmem g hg).symm)

/-! ### The intermediate tagged list -/

theorem intermediate_mem {W : Nat} {entries : List Entry} {t : Tagged}
    (ht : t ∈ intermediate W entries) :
    ∃ kns ∈ groupEntries entries, t ∈ (collapse W kns.2).map
      (fun n => (⟨n, kns.1.1, kns.1.2.1, kns.1.2.2⟩ : Tagged)) := by
  unfold intermediate at ht
  exact List.mem_flatMap.mp ht

theorem groupEntries_net_mem {W : Nat} {entries : List Entry}
    {k : String × String × String} {ns : List Net}
    (hg : (k, ns) ∈ groupEntries entries) :
    ∀ n ∈ ns, ∃ e ∈ entries, e.mkey = k ∧ e.net = n := by
  intro n hn
  rw [groupEntries_char hg] at hn
  obtain ⟨e, he, hen⟩ := List.mem_map.mp hn
  have := List.mem_filter.mp he
  exact ⟨e, this.1, by simpa using this.2, hen⟩

theorem groupEntries_net_valid {W : Nat} {entries : List Entry}
    (hv : ∀ e ∈ entries, (e.net).Valid W)
    {k : String × String × String} {ns : List Net}
    (hg : (k, ns) ∈ groupEntries entries) :
    ∀ n ∈ ns, n.Valid W := by
  intro n hn
  obtain ⟨e, he, _, hen⟩ := @groupEntries_net_mem W entries k ns hg n hn
  rw [← hen]
  exact hv e he

theorem tag_mkey (k : String × String × String) (n : Net) :
    (⟨n, k.1, k.2.1, k.2.2⟩ : Tagged).mkey = k := by
  unfold Tagged.mkey
  simp

theorem intermediate_valid {W : Nat} {entries : List Entry}
    (hv : ∀ e ∈ entries, (e.net).Valid W) :
    ∀ t ∈ intermediate W entries, (t.net).Valid W := by
  intro t ht
  obtain ⟨kns, hg, htm⟩ := intermediate_mem ht
  obtain ⟨n, hn, hnt⟩ := List.mem_map.mp htm
  have hkns : (kns.1, kns.2) ∈ groupEntries entries := by cases kns; exact hg
  have : t.net = n := by rw [← hnt]
  rw [this]
  exact collapse_valid (groupEntries_net_valid hv hkns) n hn

theorem intermediate_provenance {W : Nat} {entries : List Entry}
    (hv : ∀ e ∈ entries, (e.net).Valid W) :
    ∀ t ∈ intermediate W entries, ∀ a ∈ Net.cover W t.net,
      ∃ e ∈ entries, e.mkey = t.mkey ∧ a ∈ Net.cover W e.net := by
  intro t ht a ha
  obtain ⟨kns, hg, htm⟩ := intermediate_mem ht
  obtain ⟨n, hn, hnt⟩ := List.mem_map.mp htm
  have hkns : (kns.1, kns.2) ∈ groupEntries entries := by cases kns; exact hg
  have hvns := groupEntries_net_valid hv hkns
  have htn : t.net = n := by rw [← hnt]
  have htk : t.mkey = kns.1 := by rw [← hnt, tag_mkey]
  have hsub : Net.cover W n ⊆ coverList W kns.2 := by
    intro a' ha'
    rw [← collapse_cover hvns]
    exact cover_subset_coverList hn ha'
  obtain ⟨m, hm, ham⟩ := hsub (htn ▸ ha)
  obtain ⟨e, he, hek, hen⟩ := @groupEntries_net_mem W entries kns.1 kns.2 hkns m hm
  exact ⟨e, he, by rw [hek, htk], by rw [hen]; exact ham⟩

theorem intermediate_cover {W : Nat} {entries : List Entry}
    (hv : ∀ e ∈ entries, (e.net).Valid W) :
    coverList W ((intermediate W entries).map Tagged.net) =
      coverList W (entries.map Entry.net) := by
  ext a
  simp only [mem_coverList_iff]
  constructor
  · rintro ⟨n, hn, ha⟩
    obtain ⟨t, ht, htn⟩ := List.mem_map.mp hn
    obtain ⟨e, he, _, hae⟩ := intermediate_provenance hv t ht a (htn ▸ ha)
    exact ⟨e.net, List.mem_map_of_mem Entry.net he, hae⟩
  · rintro ⟨n, hn, ha⟩
    obtain ⟨e, he, hen⟩ := List.mem_map.mp hn
    obtain ⟨ns, hg⟩ := groupEntries_key_mem he
    have hvns := groupEntries_net_valid hv hg
    have hmem : e.net ∈ ns := by
      rw [groupEntries_char hg]
      exact List.mem_map_of_mem Entry.net (List.mem_filter.mpr ⟨he, by simp⟩)
    have : a ∈ coverList W (collapse W ns) := by
      rw [collapse_cover hvns]
      exact ⟨e.net, hmem, hen ▸ ha⟩
    obtain ⟨m, hm, ham⟩ := this
    refine ⟨m, ?_, ham⟩
    refine List.mem_map.mpr ⟨⟨m, e.mkey.1, e.mkey.2.1, e.mkey.2.2⟩, ?_, rfl⟩
    unfold intermediate
    apply List.mem_flatMap.mpr
    exact ⟨(e.mkey, ns), hg, List.mem_map.mpr ⟨m, hm, rfl⟩⟩

theorem intermediate_length {W : Nat} (entries : List Entry) :
    (intermediate W entries).length ≤ entries.length := by
  unfold intermediate
  rw [List.length_flatMap]
  have h1 : ∀ kns ∈ groupEntries entries,
      (Function.comp List.length (fun kns : (String × String × String) × List Net =>
        (collapse W kns.2).map
          (fun n => (⟨n, kns.1.1, kns.1.2.1, kns.1.2.2⟩ : Tagged)))) kns ≤
      kns.2.length := by
    intro kns _
    simp only [Function.comp_apply, List.length_map]
    exact collapse_length W kns.2
  calc ((groupEntries entries).map _).sum
      ≤ ((groupEntries entries).map fun kns => kns.2.length).sum :=
        List.sum_le_sum h1
    _ = entries.length := groupEntries_sum_length entries

/-! ### Unconditional evaluation lemmas for concrete runs -/

theorem mergeLoop_cons_eval (W : Nat) (net : Net) (rest : List Net)
    (sn : List (Net × Net)) :
    mergeLoop W (net :: rest) sn =
      match lookupKey (Net.supernet W net) sn with
      | none => mergeLoop W rest ((Net.supernet W net, net) :: sn)
      | some existing =>
        if existing = net then mergeLoop W rest sn
        else mergeLoop W (Net.supernet W net :: rest)
          (eraseKey (Net.supernet W net) sn) := by
  cases hl : lookupKey (Net.supernet W net) sn with
  | none => exact mergeLoop_cons_none W net rest sn hl
  | some existing =>
    show mergeLoop W (net :: rest) sn =
      if existing = net then mergeLoop W rest sn
      else mergeLoop W (Net.supernet W net :: rest)
        (eraseKey (Net.supernet W net) sn)
    by_cases he : existing = net
    · rw [if_pos he, mergeLoop_cons_dup W net rest sn (he ▸ hl)]
    · rw [if_neg he, mergeLoop_cons_merge W net existing rest sn hl he]

/-! ### Single-key inputs and top-level properties -/

theorem groupAux_keys_from :
    ∀ (es : List Entry) (acc : List ((String × String × String) × List Net))
    (p : (String × String × String) × List Net), p ∈ groupAux acc es →
    (∃ q ∈ acc, q.1 = p.1) ∨ ∃ e ∈ es, e.mkey = p.1 := by
  intro es
  induction es with
  | nil =>
    intro acc p hp
    rw [groupAux] at hp
    exact Or.inl ⟨p, hp, rfl⟩
  | cons e rest ih =>
    intro acc p hp
    rw [groupAux] at hp
    rcases ih _ p hp with ⟨q, hq, hqk⟩ | ⟨e', he', hk⟩
    · rcases addToGroup_keys_sub q hq with h | ⟨r, hr, hrk⟩
      · exact Or.inr ⟨e, by simp, by rw [← hqk, h]⟩
      · exact Or.inl ⟨r, hr, hrk.trans hqk⟩
    · exact Or.inr ⟨e', by simp [he'], hk⟩

theorem groupAux_nodup_keys :
    ∀ (es : List Entry) (acc : List ((String × String × String) × List Net)),
    (acc.map Prod.fst).Nodup → ((groupAux acc es).map Prod.fst).Nodup := by
  intro es
  induction es with
  | nil =>
    intro acc h
    rw [groupAux]
    exact h
  | cons e rest ih =>
    intro acc h
    rw [groupAux]
    exact ih _ (addToGroup_nodup h)

theorem groupEntries_single_key {entries : List Entry}
    {k0 : String × String × String} (hk : ∀ e ∈ entries, e.mkey = k0) :
    groupEntries entries = [] ∨ ∃ ns, groupEntries entries = [(k0, ns)] := by
  cases hg : groupEntries entries with
  | nil => exact Or.inl rfl
  | cons g1 tl =>
    right
    have hkey : ∀ g ∈ groupEntries entries, g.1 = k0 := by
      intro g hgm
      rcases groupAux_keys_from entries [] g hgm with ⟨q, hq, _⟩ | ⟨e, he, hke⟩
      · cases hq
      · exact hke.symm.trans (hk e he)
    have hk1 : g1.1 = k0 := hkey g1 (by rw [hg]; simp)
    cases tl with
    | nil =>
      refine ⟨g1.2, ?_⟩
      cases g1
      simp_all
    | cons g2 tl2 =>
      exfalso
      have hk2 : g2.1 = k0 := hkey g2 (by rw [hg]; simp)
      have hnd : ((groupEntries entries).map Prod.fst).Nodup :=
        groupAux_nodup_keys entries [] List.nodup_nil
      rw [hg] at hnd
      simp only [List.map_cons, List.nodup_cons, List.mem_cons] at hnd
      exact hnd.1 (Or.inl (hk1.trans hk2.symm))

theorem intermediate_single_key_pairwise {W : Nat} {entries : List Entry}
    {k0 : String × String × String}
    (hv : ∀ e ∈ entries, (e.net).Valid W) (hk : ∀ e ∈ entries, e.mkey = k0) :
    List.Pairwise (fun a b : Tagged => Disj W a.net b.net)
      (intermediate W entries) := by
  rcases groupEntries_single_key hk with hg | ⟨ns, hg⟩
  · unfold intermediate
    rw [hg]
    exact List.Pairwise.nil
  · unfold intermediate
    rw [hg]
    simp only [List.flatMap_cons, List.flatMap_nil, List.append_nil]
    rw [List.pairwise_map]
    have hvns := groupEntries_net_valid hv (show (k0, ns) ∈ groupEntries entries by
      rw [hg]; simp)
    exact (collapse_pairwise_disj hvns).imp fun h => h

theorem coalesceWithMetadata_perm (W : Nat) (entries : List Entry) :
    (coalesceWithMetadata W entries).Perm (crossMerge W (intermediate W entries)) :=
  List.perm_insertionSort _ _

theorem coalesceWithMetadata_cover {W : Nat} {entries : List Entry}
    (hv : ∀ e ∈ entries, (e.net).Valid W) :
    coverList W ((coalesceWithMetadata W entries).map Tagged.net) =
      coverList W (entries.map Entry.net) := by
  rw [coverList_perm ((coalesceWithMetadata_perm W entries).map Tagged.net),
    crossMerge_cover W _ (intermediate_valid hv), intermediate_cover hv]

theorem coalesceWithMetadata_length (W : Nat) (entries : List Entry) :
    (coalesceWithMetadata W entries).length ≤ entries.length := by
  have h1 := (coalesceWithMetadata_perm W entries).length_eq
  have h2 := crossMerge_length W (intermediate W entries)
  have h3 := @intermediate_length W entries
  omega

theorem coalesceWithMetadata_provenance {W : Nat} {entries : List Entry}
    (hv : ∀ e ∈ entries, (e.net).Valid W) :
    ∀ t ∈ coalesceWithMetadata W entries, t.mkey ≠ sentinelKey →
      ∀ a ∈ Net.cover W t.net,
        ∃ e ∈ entries, e.mkey = t.mkey ∧ a ∈ Net.cover W e.net := by
  intro t ht hks a ha
  have ht' : t ∈ crossMerge W (intermediate W entries) :=
    (coalesceWithMetadata_perm W entries).mem_iff.mp ht
  obtain ⟨u, hu, huk, hau⟩ :=
    crossMerge_key_cover W _ (intermediate_valid hv) t ht' hks a ha
  obtain ⟨e, he, hek, hae⟩ := intermediate_provenance hv u hu a hau
  exact ⟨e, he, by rw [hek, huk], hae⟩

/-! ### The claims -/

/-- Claim C1: the spec's scenario asserts that the two-element input
`[(10.0.0.0/25, region=a), (10.0.0.128/25, region=b)]` is coalesced into
the single sentinel-tagged block `10.0.0.0/24`.  Evaluating the code on
exactly this input shows that the cross-group pass leaves the two
adjacent sibling blocks untouched with their original metadata, because
its test (`overlaps` / `supernet_of`) never holds for disjoint adjacent
blocks — contradicting the scenario and the code's own comment about
merging "adjacent" networks. -/
theorem claim_C1_eval :
    coalesceWithMetadata 32
      [⟨⟨167772160, 25⟩, some "a", none, none⟩,
       ⟨⟨167772288, 25⟩, some "b", none, none⟩] =
      [⟨⟨167772160, 25⟩, "a", "OTHER", "other"⟩,
       ⟨⟨167772288, 25⟩, "b", "OTHER", "other"⟩] := by
  simp +decide [coalesceWithMetadata, intermediate, groupEntries, groupAux,
    addToGroup, Entry.mkey, collapse, mergeLoop_cons_eval, mergeLoop_nil,
    crossMerge_cons, crossMerge_nil, mergeGroup, skipPass, lookupKey, eraseKey,
    Net.supernet, Net.last, Net.size, mergeableB, Net.overlapsB, Net.supernetOf,
    Net.containsAddr, List.insertionSort, List.orderedInsert, netLE]

/-- Claim C2 fails on the code: with input
`[(10.0.0.0/25, a), (10.0.0.0/24, b), (10.0.0.128/26, c)]` the leader
`10.0.0.0/25` consumes `10.0.0.0/24` into a sentinel-tagged merged block,
while `10.0.0.128/26` — mergeable with the consumed `/24` but not with
the leader — passes through untouched; the output then contains two
overlapping blocks. -/
theorem claim_C2_counterexample :
    ¬ List.Pairwise (Disj 32) ((coalesceWithMetadata 32
      [⟨⟨167772160, 25⟩, some "a", none, none⟩,
       ⟨⟨167772160, 24⟩, some "b", none, none⟩,
       ⟨⟨167772288, 26⟩, some "c", none, none⟩]).map Tagged.net) := by
  have h : coalesceWithMetadata 32
      [⟨⟨167772160, 25⟩, some "a", none, none⟩,
       ⟨⟨167772160, 24⟩, some "b", none, none⟩,
       ⟨⟨167772288, 26⟩, some "c", none, none⟩] =
      [⟨⟨167772160, 24⟩, "other", "OTHER", "other"⟩,
       ⟨⟨167772288, 26⟩, "c", "OTHER", "other"⟩] := by
    simp +decide [coalesceWithMetadata, intermediate, groupEntries, groupAux,
      addToGroup, Entry.mkey, collapse, mergeLoop_cons_eval, mergeLoop_nil,
      crossMerge_cons, crossMerge_nil, mergeGroup, skipPass, lookupKey, eraseKey,
      Net.supernet, Net.last, Net.size, mergeableB, Net.overlapsB, Net.supernetOf,
      Net.containsAddr, List.insertionSort, List.orderedInsert, netLE]
  rw [h]
  decide

/-- Claim C2, amended: the output of `coalesceWithMetadata` is pairwise
non-overlapping whenever all input entries carry the same metadata key
(in general, blocks left over from different merge-sets may overlap, as
the counterexample shows). -/
theorem claim_C2_amended (W : Nat) (entries : List Entry)
    (hv : ∀ e ∈ entries, (e.net).Valid W)
    (hk : ∀ e ∈ entries, ∀ f ∈ entries, e.mkey = f.mkey) :
    List.Pairwise (Disj W) ((coalesceWithMetadata W entries).map Tagged.net) := by
  by_cases hemp : entries = []
  · subst hemp
    have h0 : coalesceWithMetadata W [] = [] := by
      simp [coalesceWithMetadata, intermediate, groupEntries, groupAux,
        crossMerge_nil, List.insertionSort]
    rw [h0]
    simp
  · obtain ⟨e0, hmem0⟩ := List.exists_mem_of_ne_nil entries hemp
    have hk0 : ∀ e ∈ entries, e.mkey = e0.mkey := fun e he => hk e he e0 hmem0
    have hpair := intermediate_single_key_pairwise hv hk0
    have hcm : crossMerge W (intermediate W entries) = intermediate W entries :=
      crossMerge_eq_self (hpair.imp fun h => mergeableB_eq_false_of_disj h)
    unfold coalesceWithMetadata
    rw [hcm, List.pairwise_map]
    refine (List.Perm.pairwise_iff ?_ (List.perm_insertionSort _ _)).mpr hpair
    intro a b h
    exact disj_symm h

/-- Witness for the amended claim C2 at a concrete same-key input. -/
theorem claim_C2_amended_witness :
    ((∀ e ∈ [(⟨⟨167772160, 25⟩, some "a", none, none⟩ : Entry),
        ⟨⟨167772288, 25⟩, some "a", none, none⟩], (e.net).Valid 32) ∧
      (∀ e ∈ [(⟨⟨167772160, 25⟩, some "a", none, none⟩ : Entry),
        ⟨⟨167772288, 25⟩, some "a", none, none⟩],
        ∀ f ∈ [(⟨⟨167772160, 25⟩, some "a", none, none⟩ : Entry),
        ⟨⟨167772288, 25⟩, some "a", none, none⟩], e.mkey = f.mkey)) ∧
    List.Pairwise (Disj 32) ((coalesceWithMetadata 32
      [⟨⟨167772160, 25⟩, some "a", none, none⟩,
       ⟨⟨167772288, 25⟩, some "a", none, none⟩]).map Tagged.net) :=
  ⟨⟨by decide, by decide⟩,
    claim_C2_amended 32 _ (by decide) (by decide)⟩

/-- Claim C3: `collapse` (the Plain Collapser, `coalesce_prefixes`)
returns a pairwise non-overlapping, sibling-free list, sorted ascending
by the network ordering, covering exactly the addresses of the input,
and its result depends only on the set of input blocks — unchanged under
reordering and duplication of the input. -/
theorem claim_C3 (W : Nat) (S : List Net) (hv : ∀ n ∈ S, n.Valid W) :
    List.Pairwise (Disj W) (collapse W S) ∧
    List.Pairwise (fun a b => ¬ Sibling W a b) (collapse W S) ∧
    List.Pairwise netLE (collapse W S) ∧
    coverList W (collapse W S) = coverList W S ∧
    ∀ S' : List Net, (∀ x, x ∈ S' ↔ x ∈ S) → collapse W S' = collapse W S := by
  refine ⟨collapse_pairwise_disj hv, collapse_no_sibling hv, collapse_sorted W S,
    collapse_cover hv, ?_⟩
  intro S' hiff
  have hv' : ∀ n ∈ S', n.Valid W := fun n hn => hv n ((hiff n).mp hn)
  exact collapse_eq_of_cover_eq hv' hv (coverList_congr hiff)

/-- Witness for claim C3 at the two sibling `/25` blocks. -/
theorem claim_C3_witness :
    (∀ n ∈ [(⟨167772160, 25⟩ : Net), ⟨167772288, 25⟩], n.Valid 32) ∧
    (List.Pairwise (Disj 32) (collapse 32 [⟨167772160, 25⟩, ⟨167772288, 25⟩]) ∧
     List.Pairwise (fun a b => ¬ Sibling 32 a b)
       (collapse 32 [⟨167772160, 25⟩, ⟨167772288, 25⟩]) ∧
     List.Pairwise netLE (collapse 32 [⟨167772160, 25⟩, ⟨167772288, 25⟩]) ∧
     coverList 32 (collapse 32 [⟨167772160, 25⟩, ⟨167772288, 25⟩]) =
       coverList 32 [⟨167772160, 25⟩, ⟨167772288, 25⟩] ∧
     ∀ S' : List Net,
       (∀ x, x ∈ S' ↔ x ∈ [(⟨167772160, 25⟩ : Net), ⟨167772288, 25⟩]) →
       collapse 32 S' = collapse 32 [⟨167772160, 25⟩, ⟨167772288, 25⟩]) :=
  ⟨by decide, claim_C3 32 [⟨167772160, 25⟩, ⟨167772288, 25⟩] (by decide)⟩

/-- Claim C4: metadata homogeneity — every output of
`coalesceWithMetadata` carrying a non-sentinel metadata key covers only
addresses contributed by input entries that carry exactly that key. -/
theorem claim_C4 (W : Nat) (entries : List Entry)
    (hv : ∀ e ∈ entries, (e.net).Valid W) :
    ∀ t ∈ coalesceWithMetadata W entries, t.mkey ≠ sentinelKey →
      ∀ a ∈ Net.cover W t.net,
        ∃ e ∈ entries, e.mkey = t.mkey ∧ a ∈ Net.cover W e.net :=
  coalesceWithMetadata_provenance hv

/-- Witness for claim C4 at a concrete one-entry input. -/
theorem claim_C4_witness :
    (∀ e ∈ [(⟨⟨167772160, 25⟩, some "a", none, none⟩ : Entry)],
      (e.net).Valid 32) ∧
    (∀ t ∈ coalesceWithMetadata 32 [⟨⟨167772160, 25⟩, some "a", none, none⟩],
      t.mkey ≠ sentinelKey → ∀ a ∈ Net.cover 32 t.net,
        ∃ e ∈ [(⟨⟨167772160, 25⟩, some "a", none, none⟩ : Entry)],
          e.mkey = t.mkey ∧ a ∈ Net.cover 32 e.net) :=
  ⟨by decide, claim_C4 32 [⟨⟨167772160, 25⟩, some "a", none, none⟩] (by decide)⟩

/-- Claim C5: sentinel fallback — when a merge-set (the leader together
with the entries it consumed) contains two members with different
metadata keys, every block produced by `mergeGroup` for that merge-set
is tagged with the sentinel key `("other", "OTHER", "other")`. -/
theorem claim_C5 (W : Nat) (e : Tagged) (matched : List Tagged) (f g : Tagged)
    (hf : f ∈ e :: matched) (hg : g ∈ e :: matched) (hne : f.mkey ≠ g.mkey) :
    ∀ t ∈ mergeGroup W e matched, t.mkey = sentinelKey :=
  mergeGroup_sentinel hf hg hne

/-- Witness for claim C5: a `/24` and its contained `/25` with different
regions merge into sentinel-tagged blocks. -/
theorem claim_C5_witness :
    ((⟨⟨167772160, 24⟩, "a", "OTHER", "other"⟩ : Tagged) ∈
        (⟨⟨167772160, 24⟩, "a", "OTHER", "other"⟩ : Tagged) ::
          [(⟨⟨167772160, 25⟩, "b", "OTHER", "other"⟩ : Tagged)] ∧
      (⟨⟨167772160, 25⟩, "b", "OTHER", "other"⟩ : Tagged) ∈
        (⟨⟨167772160, 24⟩, "a", "OTHER", "other"⟩ : Tagged) ::
          [(⟨⟨167772160, 25⟩, "b", "OTHER", "other"⟩ : Tagged)] ∧
      (⟨⟨167772160, 24⟩, "a", "OTHER", "other"⟩ : Tagged).mkey ≠
        (⟨⟨167772160, 25⟩, "b", "OTHER", "other"⟩ : Tagged).mkey) ∧
    ∀ t ∈ mergeGroup 32 ⟨⟨167772160, 24⟩, "a", "OTHER", "other"⟩
        [⟨⟨167772160, 25⟩, "b", "OTHER", "other"⟩],
      t.mkey = sentinelKey :=
  ⟨⟨by decide, by decide, by decide⟩,
    claim_C5 32 ⟨⟨167772160, 24⟩, "a", "OTHER", "other"⟩
      [⟨⟨167772160, 25⟩, "b", "OTHER", "other"⟩]
      ⟨⟨167772160, 24⟩, "a", "OTHER", "other"⟩
      ⟨⟨167772160, 25⟩, "b", "OTHER", "other"⟩
      (by decide) (by decide) (by decide)⟩

/-- Claim C6: end-to-end coverage preservation — the blocks returned by
`coalesceWithMetadata` cover exactly the same addresses as the input
blocks. -/
theorem claim_C6 (W : Nat) (entries : List Entry)
    (hv : ∀ e ∈ entries, (e.net).Valid W) :
    coverList W ((coalesceWithMetadata W entries).map Tagged.net) =
      coverList W (entries.map Entry.net) :=
  coalesceWithMetadata_cover hv

/-- Witness for claim C6 at a concrete two-entry input. -/
theorem claim_C6_witness :
    (∀ e ∈ [(⟨⟨167772160, 25⟩, some "a", none, none⟩ : Entry),
        ⟨⟨167772288, 25⟩, some "b", none, none⟩], (e.net).Valid 32) ∧
    coverList 32 ((coalesceWithMetadata 32
        [⟨⟨167772160, 25⟩, some "a", none, none⟩,
         ⟨⟨167772288, 25⟩, some "b", none, none⟩]).map Tagged.net) =
      coverList 32 ([(⟨⟨167772160, 25⟩, some "a", none, none⟩ : Entry),
         ⟨⟨167772288, 25⟩, some "b", none, none⟩].map Entry.net) :=
  ⟨by decide, claim_C6 32 _ (by decide)⟩

/-- Claim C7: the Plain Collapser is idempotent — collapsing an
already-collapsed list returns it unchanged. -/
theorem claim_C7 (W : Nat) (S : List Net) (hv : ∀ n ∈ S, n.Valid W) :
    collapse W (collapse W S) = collapse W S :=
  collapse_idem hv

/-- Witness for claim C7. -/
theorem claim_C7_witness :
    (∀ n ∈ [(⟨167772160, 25⟩ : Net), ⟨167772288, 25⟩], n.Valid 32) ∧
    collapse 32 (collapse 32 [⟨167772160, 25⟩, ⟨167772288, 25⟩]) =
      collapse 32 [⟨167772160, 25⟩, ⟨167772288, 25⟩] :=
  ⟨by decide, claim_C7 32 [⟨167772160, 25⟩, ⟨167772288, 25⟩] (by decide)⟩

/-- Claim C8: the empty input produces the empty output, and a
single-entry input passes through with its metadata defaults applied;
the merge algorithm is a total function with no error path once the
entries are parsed (`coalesceWithMetadata` is defined for every input
list, of any size, of either family width). -/
theorem claim_C8 (W : Nat) :
    coalesceWithMetadata W [] = [] ∧
    ∀ (e : Entry), coalesceWithMetadata W [e] =
      [⟨e.net, e.region.getD "other", e.service.getD "OTHER",
        e.nbg.getD "other"⟩] := by
  constructor
  · simp [coalesceWithMetadata, intermediate, groupEntries, groupAux,
      crossMerge_nil, List.insertionSort]
  · intro e
    simp [coalesceWithMetadata, intermediate, groupEntries, groupAux, addToGroup,
      Entry.mkey, collapse, mergeLoop_cons_eval, mergeLoop_nil, crossMerge_cons,
      crossMerge_nil, mergeGroup, skipPass, lookupKey, List.insertionSort,
      List.orderedInsert]

/-- Claim C9: the parser rejects any CIDR whose address has a bit set
beyond the mask length (`strict=True` raises instead of masking). -/
theorem claim_C9 (W base plen : Nat) (h1 : plen ≤ W) (h2 : base < 2 ^ W)
    (h3 : base % 2 ^ (W - plen) ≠ 0) :
    parseNetwork W base plen = Except.error ParseError.nonCanonical := by
  unfold parseNetwork
  rw [if_neg (by omega), if_neg (by omega), if_pos h3]

/-- Witness for claim C9: `10.0.0.1/24` is rejected as non-canonical. -/
theorem claim_C9_witness :
    (24 ≤ 32 ∧ 167772161 < 2 ^ 32 ∧ 167772161 % 2 ^ (32 - 24) ≠ 0) ∧
    parseNetwork 32 167772161 24 = Except.error ParseError.nonCanonical :=
  ⟨⟨by decide, by decide, by decide⟩,
    claim_C9 32 167772161 24 (by decide) (by decide) (by decide)⟩

/-- Claim C10: compaction never increases the number of entries — the
output of `coalesceWithMetadata` is at most as long as its input. -/
theorem claim_C10 (W : Nat) (entries : List Entry)
    (hv : ∀ e ∈ entries, (e.net).Valid W) :
    (coalesceWithMetadata W entries).length ≤ entries.length :=
  coalesceWithMetadata_length W entries

/-- Witness for claim C10. -/
theorem claim_C10_witness :
    (∀ e ∈ [(⟨⟨167772160, 25⟩, some "a", none, none⟩ : Entry),
        ⟨⟨167772288, 25⟩, some "a", none, none⟩], (e.net).Valid 32) ∧
    (coalesceWithMetadata 32
        [⟨⟨167772160, 25⟩, some "a", none, none⟩,
         ⟨⟨167772288, 25⟩, some "a", none, none⟩]).length ≤
      ([(⟨⟨167772160, 25⟩, some "a", none, none⟩ : Entry),
         ⟨⟨167772288, 25⟩, some "a", none, none⟩] : List Entry).length :=
  ⟨by decide, claim_C10 32 _ (by decide)⟩
